import Mathlib

/-!
Verification development for the erdtree parallel traversal and
tree-assembly core (`src/render/tree/mod.rs`), the unit-prefix leaf
(`src/render/disk_usage/units.rs`) and the context error enumeration
(`src/render/context/error.rs`).

The Rust code is shallowly embedded: the single-threaded assembler loop is a
fold over the sequence of `Ongoing` entries it receives from the channel,
the `indextree` arena is an association list from integer handles to nodes
together with an association list of child-edge lists, and fallible
operations (Rust panics and `Result`s) become `Option`/`Except` values.
Machine integers that can only hold non-negative byte counts are `Nat`;
the `f64` byte value fed to the unit-prefix conversion is an `Int` so that
the negative branch is representable.
-/

deriving instance DecidableEq for Except

/-! ## Association-list helpers

`indextree::Arena` and `HashMap` are modelled as association lists with
decidable-equality keys.  `alookup` is `HashMap::get`, `aupdate` is
`HashMap::insert` (replacing an existing binding), `aremove` is
`HashMap::remove`. -/

def alookup {κ β : Type} [DecidableEq κ] (k : κ) : List (κ × β) → Option β
  | [] => none
  | (k', v) :: rest => if k' = k then some v else alookup k rest

def aupdate {κ β : Type} [DecidableEq κ] (k : κ) (v : β) : List (κ × β) → List (κ × β)
  | [] => [(k, v)]
  | (k', v') :: rest => if k' = k then (k, v) :: rest else (k', v') :: aupdate k v rest

def aremove {κ β : Type} [DecidableEq κ] (k : κ) : List (κ × β) → List (κ × β)
  | [] => []
  | (k', v') :: rest => if k' = k then rest else (k', v') :: aremove k rest

/-! ## Unit prefixes (`src/render/disk_usage/units.rs`)

The Rust conversions take an `f64` and branch on `value.log2()` (resp.
`value.log10()`).  IEEE-754 semantics at the points the claims touch:
`log2` of a strictly negative number is NaN and every `NaN < c` comparison
is `false`; `log2 0.0 = -inf`, and `-inf < c` is `true`; for `v > 0` the
comparison `log2 v < n` with `n` a multiple of 10 (resp. `log10 v < n`, `n`
a multiple of 3) holds exactly when `v < 2^n` (resp. `v < 10^n`), since the
logarithm is strictly monotone and exact at these power boundaries.  The
comparisons are embedded through `logCmpLt b v n`, the truth value of
`v.log_b() < n` for an integer byte value `v`. -/

def logCmpLt (b : Nat) (v : Int) (n : Nat) : Bool :=
  if v < 0 then false
  else if v = 0 then true
  else decide (v < (b : Int) ^ n)

/-- Binary prefixes (`BinPrefix` in the source). -/
inductive BinScale where
  | Base
  | Kibi
  | Mebi
  | Gibi
  | Tebi
deriving DecidableEq, Repr

/-- SI prefixes (`SiPrefix` in the source). -/
inductive SiScale where
  | Base
  | Kilo
  | Mega
  | Giga
  | Tera
deriving DecidableEq, Repr

/-- `impl From<f64> for BinPrefix`: branch on `value.log2()`. -/
def BinScale.fromValue (value : Int) : BinScale :=
  if logCmpLt 2 value 10 then .Base
  else if logCmpLt 2 value 20 then .Kibi
  else if logCmpLt 2 value 30 then .Mebi
  else if logCmpLt 2 value 40 then .Gibi
  else .Tebi

/-- `impl From<f64> for SiPrefix`: branch on `value.log10()`. -/
def SiScale.fromValue (value : Int) : SiScale :=
  if logCmpLt 10 value 3 then .Base
  else if logCmpLt 10 value 6 then .Kilo
  else if logCmpLt 10 value 9 then .Mega
  else if logCmpLt 10 value 12 then .Giga
  else .Tera

/-- `UnitPrefix::base_value` for binary prefixes. -/
def BinScale.baseValue : BinScale → Nat
  | .Base => 1
  | .Kibi => 2 ^ 10
  | .Mebi => 2 ^ 20
  | .Gibi => 2 ^ 30
  | .Tebi => 2 ^ 40

/-- `UnitPrefix::base_value` for SI prefixes. -/
def SiScale.baseValue : SiScale → Nat
  | .Base => 1
  | .Kilo => 10 ^ 3
  | .Mega => 10 ^ 6
  | .Giga => 10 ^ 9
  | .Tera => 10 ^ 12

/-! ## Data model

`Node` (`src/render/tree/node/mod.rs`) and `Inode` (`src/fs/inode.rs`) are
not among the provided sources; their shape is modelled from the spec §3.
Only the accessors used by `src/render/tree/mod.rs` are carried:
`path`, `depth`, `is_dir`, `parent_path`, `file_size`, `inode`, `ino`,
`nlink`, `blocks`, `set_file_size`. -/

/-- Modelled from the spec: `Inode` (`src/fs/inode.rs` is not in the
sources).  Spec §3: "a value type (device id + inode number) used as a set
key to detect multiple directory entries referring to the same underlying
file (hard links)", plus the link count consulted by the assembler. -/
structure Inode where
  ino : Nat
  dev : Nat
  nlink : Nat
deriving DecidableEq, Repr

/-- Hard-link identity: device id + inode number (spec §3). -/
def Inode.key (i : Inode) : Nat × Nat := (i.dev, i.ino)

/-- Modelled from the spec: one filesystem entry (spec §3 "Entry/Node"):
path, depth from root, kind, optional file size, optional platform
metadata.  A path is a list of components; `FileSize` is carried as its
byte count (the precomputed display width of the source struct does not
feed back into the tree). -/
structure Node where
  path : List String
  depth : Nat
  isDir : Bool
  fileSize : Option Nat
  inode : Option Inode
  blocks : Option Nat
deriving DecidableEq, Repr

/-- `Path::parent`: drop the last component; `None` for an empty path. -/
def Node.parentPath (n : Node) : Option (List String) :=
  if n.path = [] then none else some n.path.dropLast

def Node.ino (n : Node) : Option Nat := n.inode.map Inode.ino

def Node.nlink (n : Node) : Option Nat := n.inode.map Inode.nlink

/-- Modelled from the spec: `file::Type` (`src/render/context/file.rs` is
not in the sources), the optional type restriction of §6 ("e.g.,
directories only"). -/
inductive FileType where
  | File
  | Dir
  | Link
deriving DecidableEq, Repr

/-- The variants of `src/render/context/error.rs` (payloads elided). -/
inductive CtxError where
  | ArgParse
  | Config
  | EmptyGlob
  | IgnoreErr
  | InvalidRegularExpression
  | PatternNotProvided
deriving DecidableEq, Repr

/-- Modelled from the spec: the tree-level error enumeration of §7
(`src/render/tree/error.rs` is not in the sources): `DirNotFound`
(carrying the offending path, per §4.1 the outcome when the root does not
canonicalize or its metadata cannot be read), the structural assembly
failures `ExpectedParent` and `MissingRoot`, the post-assembly
`NoMatches`, and the embedding of the context-level errors raised while
building the walker's filter predicates. -/
inductive Error where
  | Ctx (e : CtxError)
  | DirNotFound (path : List String)
  | ExpectedParent
  | MissingRoot
  | NoMatches
deriving DecidableEq, Repr

/-- Modelled from the spec: display width in characters of an integer
(`utils::num_integral`; `src/utils` is not in the sources). -/
def numIntegral (n : Nat) : Nat := (Nat.toDigits 10 n).length

/-- Running maximum column widths (`ColumnProperties` of
`src/render/context/output.rs`, fields as read and written by
`Tree::update_column_properties`). -/
structure ColumnProperties where
  maxSizeWidth : Nat
  maxInoWidth : Nat
  maxNlinkWidth : Nat
  maxBlockWidth : Nat
deriving DecidableEq, Repr

/-- `Tree::update_column_properties` (unix variant, gated by the
"long listing" flag).  The size column of the source reads the
precomputed `FileSize::size_columns`, modelled as the digit width of the
byte count. -/
def updateColumnProps (cp : ColumnProperties) (n : Node) (long : Bool) : ColumnProperties :=
  let cp :=
    match n.fileSize with
    | some s =>
        if numIntegral s > cp.maxSizeWidth then { cp with maxSizeWidth := numIntegral s } else cp
    | none => cp
  if long then
    let cp :=
      match n.ino with
      | some i =>
          if numIntegral i > cp.maxInoWidth then { cp with maxInoWidth := numIntegral i } else cp
      | none => cp
    let cp :=
      match n.nlink with
      | some l =>
          if numIntegral l > cp.maxNlinkWidth then { cp with maxNlinkWidth := numIntegral l } else cp
      | none => cp
    match n.blocks with
    | some b =>
        if numIntegral b > cp.maxBlockWidth then { cp with maxBlockWidth := numIntegral b } else cp
    | none => cp
  else cp

/-- The slice of `Context` consumed by `src/render/tree/mod.rs`.  The
predicate/override constructors (`no_git_override`, `glob_predicate`,
`regex_predicate`) live outside the sources; their outcomes are carried
as oracle fields so that `TryFrom<&Context> for WalkParallel` can be
mirrored faithfully. -/
structure Context where
  dir : List String
  follow : Bool
  noIgnore : Bool
  hidden : Bool
  threads : Nat
  pattern : Option String
  glob : Bool
  iglob : Bool
  prune : Bool
  dirsOnly : Bool
  fileType : Option FileType
  long : Bool
  truncate : Bool
  noGitOverrideRes : Except CtxError Unit
  globPredicateRes : Except CtxError Unit
  regexPredicateRes : Except CtxError Unit
deriving Repr

/-- Filesystem oracle for the two effectful calls of
`TryFrom<&Context> for WalkParallel`: `fs::canonicalize` and
`fs::metadata` (`none` models the `Err` outcome). -/
structure FileSystem where
  canonicalize : List String → Option (List String)
  metadata : List String → Option Unit

/-- `impl TryFrom<&Context> for WalkParallel` (mod.rs:392-416), up to the
external walker value (erased to `Unit`).  A canonicalization failure is
propagated through `?`, which per spec §4.1 surfaces as `DirNotFound`; a
metadata failure is mapped to `DirNotFound` explicitly in the source. -/
def walkTryFrom (fs : FileSystem) (ctx : Context) : Except Error Unit :=
  match fs.canonicalize ctx.dir with
  | none => .error (.DirNotFound ctx.dir)
  | some rootPath =>
    match fs.metadata rootPath with
    | none => .error (.DirNotFound rootPath)
    | some _ =>
      match ctx.noGitOverrideRes with
      | .error e => .error (.Ctx e)
      | .ok _ =>
        if ctx.pattern.isSome then
          if ctx.glob || ctx.iglob then ctx.globPredicateRes.mapError Error.Ctx
          else ctx.regexPredicateRes.mapError Error.Ctx
        else .ok ()

/-! ## Assembler state

The `indextree::Arena` plus the assembler's book-keeping: `nodes` is the
arena store (handle to node), `edges` the parent-to-ordered-children
adjacency built by `NodeId::append`, `branches` the transient
path-to-pending-children map, `inodes` the set of hard-link identities
already counted, `nextId` the next fresh handle. -/
structure TreeState where
  nodes : List (Nat × Node)
  edges : List (Nat × List Nat)
  branches : List (List String × List Nat)
  inodes : List (Nat × Nat)
  nextId : Nat
deriving DecidableEq, Repr

def TreeState.empty : TreeState := ⟨[], [], [], [], 0⟩

/-- `Arena::new_node`: allocate a fresh handle for the entry. -/
def TreeState.newNode (st : TreeState) (n : Node) : Nat × TreeState :=
  (st.nextId, { st with nodes := st.nodes ++ [(st.nextId, n)], nextId := st.nextId + 1 })

/-- Children recorded for a handle by `NodeId::append`. -/
def childrenOf (st : TreeState) (id : Nat) : List Nat :=
  (alookup id st.edges).getD []

/-- The common tail of the consumer loop body (mod.rs:149-159): resolve
the parent path (failing is `ExpectedParent`), insert the entry into the
arena, and push its handle onto the parent's branch list.  Faithful to
the source: when the parent's branch list does not exist yet, the source
inserts an *empty* vector (`branches.insert(parent, vec![])`), so the
freshly allocated handle is not recorded anywhere. -/
def consumeAttach (st : TreeState) (rootId : Option Nat) (node : Node) :
    Except Error (TreeState × Option Nat) :=
  node.parentPath.elim (.error .ExpectedParent) fun parent =>
    (alookup parent (st.newNode node).2.branches).elim
      (.ok ({ (st.newNode node).2 with
              branches := aupdate parent [] (st.newNode node).2.branches }, rootId))
      (fun l => .ok ({ (st.newNode node).2 with
              branches := aupdate parent (l ++ [(st.newNode node).1])
                (st.newNode node).2.branches }, rootId))

/-- The `if !branches.contains_key(node_path) { branches.insert(..., vec![]) }`
step run for every directory entry (mod.rs:139-141). -/
def consumeDirEnsure (st : TreeState) (node : Node) : TreeState :=
  if (alookup node.path st.branches).isSome then st
  else { st with branches := aupdate node.path [] st.branches }

/-- One iteration of the consumer loop (mod.rs:135-160) on an `Ongoing`
entry: a directory first ensures a branch list for its own path exists,
and a depth-0 directory becomes the root and is not attached to anyone. -/
def consumeEntry (acc : TreeState × Option Nat) (node : Node) :
    Except Error (TreeState × Option Nat) :=
  if node.isDir then
    if node.depth = 0 then
      .ok (((consumeDirEnsure acc.1 node).newNode node).2,
           some ((consumeDirEnsure acc.1 node).newNode node).1)
    else consumeAttach (consumeDirEnsure acc.1 node) acc.2 node
  else consumeAttach acc.1 acc.2 node

/-- The consumer loop: fold over the sequence of `Ongoing` entries
received on the channel before `Done`. -/
def consume (entries : List Node) : Except Error (TreeState × Option Nat) :=
  entries.foldlM consumeEntry (TreeState.empty, none)

/-! ## Tree assembly (`Tree::assemble_tree`, mod.rs:200-281)

The node comparator is the external collaborator of spec §4.2 step 6: a
comparison function over two nodes.  `Vec::sort_by` is a stable merge
sort, mirrored by `List.mergeSort` on the `cmp a b ≠ Greater` order.
Arena indexing (`tree[id]`) and `branches.remove(..).unwrap()` panic in
the source when the handle or key is absent; those panics, and fuel
exhaustion of the embedded recursion, are the `none` outcome. -/

/-- `children.sort_by(|a, b| node_comparator(tree[a], tree[b]))` order on
handles.  The fallback `true` on a missing handle is unreachable in a
run: arena indexing panics there. -/
def nodeLe (st : TreeState) (cmp : Node → Node → Ordering) (a b : Nat) : Bool :=
  match alookup a st.nodes, alookup b st.nodes with
  | some na, some nb => cmp na nb ≠ Ordering.gt
  | _, _ => true

/-- Stable insertion used by `sortBy`. -/
def insertBy (le : Nat → Nat → Bool) (a : Nat) : List Nat → List Nat
  | [] => [a]
  | b :: bs => if le a b then a :: b :: bs else b :: insertBy le a bs

/-- `Vec::sort_by`: a stable sort by the comparator.  The source's stable
merge sort is embedded as a stable insertion sort; on a comparator that
is a total order (the comparator contract of spec §4.2 step 6) every
stable sort produces the same list. -/
def sortBy (le : Nat → Nat → Bool) : List Nat → List Nat
  | [] => []
  | x :: xs => insertBy le x (sortBy le xs)

/-- `dir.set_file_size(dir_size)` on handle `id`. -/
def setNodeSize (id : Nat) (size : Nat) (st : TreeState) : TreeState :=
  match alookup id st.nodes with
  | none => st
  | some n => { st with nodes := aupdate id { n with fileSize := some size } st.nodes }

/-- The `current_node_id.append(child_id, tree)` loop over the sorted
children: record them, in order, at the end of `id`'s child list. -/
def appendChildren (id : Nat) (kids : List Nat) (st : TreeState) : TreeState :=
  { st with edges := aupdate id ((alookup id st.edges).getD [] ++ kids) st.edges }

/-- The `for child_id in &children` loop of `assemble_tree`
(mod.rs:215-253), threading the arena, the column widths, and the
running directory size `acc`.  The depth-first recursion into a child
directory is the function argument `rec` (instantiated with
`assembleTree` at the next smaller fuel), so that both loops are
structurally recursive and compute by reduction. -/
def assembleKids (rec : TreeState → ColumnProperties → Nat → Option (TreeState × ColumnProperties))
    (ctx : Context) :
    TreeState → ColumnProperties → List Nat → Nat → Option (TreeState × ColumnProperties × Nat)
  | st, cp, [], acc => some (st, cp, acc)
  | st, cp, c :: rest, acc =>
    (alookup c st.nodes).bind fun child0 =>
    (if child0.isDir then rec st cp c else some (st, cp)).bind fun stcp =>
    (alookup c stcp.1.nodes).bind fun child =>
    child.inode.elim
      (assembleKids rec ctx stcp.1 (updateColumnProps stcp.2 child ctx.long) rest
        (acc + child.fileSize.getD 0))
      (fun i =>
        if i.nlink > 1 then
          if i.key ∈ stcp.1.inodes then
            assembleKids rec ctx stcp.1 (updateColumnProps stcp.2 child ctx.long) rest acc
          else
            assembleKids rec ctx { stcp.1 with inodes := stcp.1.inodes ++ [i.key] }
              (updateColumnProps stcp.2 child ctx.long) rest (acc + child.fileSize.getD 0)
        else
          assembleKids rec ctx stcp.1 (updateColumnProps stcp.2 child ctx.long) rest
            (acc + child.fileSize.getD 0))

/-- `Tree::assemble_tree`: take the current directory's branch list,
fold the children (recursing depth-first into child directories,
tracking column widths, deduplicating hard links into the running size),
record the aggregate size when nonzero, then sort the children and
append them under the current node.  In the bound result triple `res`,
`res.1` is the arena, `res.2.1` the column widths and `res.2.2` the
accumulated directory size. -/
def assembleTree : Nat → (Node → Node → Ordering) → Context →
    TreeState → ColumnProperties → Nat → Option (TreeState × ColumnProperties)
  | 0, _, _, _, _, _ => none
  | fuel + 1, cmp, ctx, st, cp, currentId =>
    (alookup currentId st.nodes).bind fun current =>
    (alookup current.path st.branches).bind fun children =>
    (assembleKids (assembleTree fuel cmp ctx) ctx
        { st with branches := aremove current.path st.branches } cp children 0).bind fun res =>
    let st3 := if res.2.2 > 0 then setNodeSize currentId res.2.2 res.1 else res.1
    (alookup currentId st3.nodes).bind fun dir =>
    some (appendChildren currentId (sortBy (nodeLe st3 cmp) children) st3,
          updateColumnProps res.2.1 dir ctx.long)

/-! ## Pruning and filtering (mod.rs:284-323)

`NodeId::descendants` is a preorder walk of the subtree; the embedded
walk carries fuel bounded by the arena size, which suffices on every
acyclic edge structure (a chain of child edges cannot be longer than the
node count). -/

/-- `NodeId::descendants`: the subtree of `id` in preorder, fuel-bounded. -/
def descend (st : TreeState) : Nat → Nat → List Nat
  | 0, _ => []
  | fuel + 1, id => id :: (childrenOf st id).flatMap (descend st fuel)

/-- `tree[id].get().is_dir()`; `false` where the source would panic on a
missing handle (no such descendant is produced by a run). -/
def isDirNode (st : TreeState) (id : Nat) : Bool :=
  match alookup id st.nodes with
  | some n => n.isDir
  | none => false

/-- The `to_prune` collection pass of `Tree::prune_directories`
(mod.rs:285-297): directory descendants of the root, root excluded, with
zero children. -/
def pruneTargets (st : TreeState) (rootId : Nat) : List Nat :=
  ((descend st (st.nodes.length + 1) rootId).drop 1).filter
    (fun id => isDirNode st id && (childrenOf st id).isEmpty)

/-- `NodeId::remove_subtree`: detach `id` from any child list and delete
the nodes and edge entries of its whole subtree from the arena. -/
def removeSubtree (st : TreeState) (id : Nat) : TreeState :=
  let ds := descend st (st.nodes.length + 1) id
  { st with
    nodes := ds.foldl (fun ns d => aremove d ns) st.nodes
    edges := (ds.foldl (fun es d => aremove d es) st.edges).map
      (fun ke => (ke.1, ke.2.erase id)) }

theorem aremove_length_le {κ β : Type} [DecidableEq κ] (k : κ) (l : List (κ × β)) :
    (aremove k l).length ≤ l.length := by
  induction l with
  | nil => simp [aremove]
  | cons h t ih =>
    obtain ⟨k', v'⟩ := h
    by_cases hk : k' = k
    · simp [aremove, hk]
    · simp [aremove, hk]; omega

theorem aremove_length_lt {κ β : Type} [DecidableEq κ] (k : κ) (l : List (κ × β)) (v : β)
    (h : alookup k l = some v) : (aremove k l).length < l.length := by
  induction l with
  | nil => simp [alookup] at h
  | cons hd t ih =>
    obtain ⟨k', v'⟩ := hd
    by_cases hk : k' = k
    · simp [aremove, hk]
    · simp only [alookup, hk, if_false] at h
      have := ih h
      simp [aremove, hk]
      omega

theorem foldl_aremove_length_le {β : Type} (ds : List Nat) (l : List (Nat × β)) :
    (ds.foldl (fun ns d => aremove d ns) l).length ≤ l.length := by
  induction ds generalizing l with
  | nil => simp
  | cons d ds ih =>
    calc (List.foldl (fun ns d => aremove d ns) (aremove d l) ds).length
        ≤ (aremove d l).length := ih _
      _ ≤ l.length := aremove_length_le _ _

theorem removeSubtree_nodes_length_le (st : TreeState) (id : Nat) :
    (removeSubtree st id).nodes.length ≤ st.nodes.length :=
  foldl_aremove_length_le _ _

theorem removeSubtree_nodes_length_lt (st : TreeState) (id : Nat) (v : Node)
    (h : alookup id st.nodes = some v) :
    (removeSubtree st id).nodes.length < st.nodes.length := by
  show (List.foldl (fun ns d => aremove d ns) st.nodes
      (descend st (st.nodes.length + 1) id)).length < st.nodes.length
  rw [show descend st (st.nodes.length + 1) id
        = id :: (childrenOf st id).flatMap (descend st st.nodes.length) from rfl]
  calc (List.foldl (fun ns d => aremove d ns) (aremove id st.nodes)
          ((childrenOf st id).flatMap (descend st st.nodes.length))).length
      ≤ (aremove id st.nodes).length := foldl_aremove_length_le _ _
    _ < st.nodes.length := aremove_length_lt _ _ _ h

theorem foldl_removeSubtree_length_le (ts : List Nat) (st : TreeState) :
    (ts.foldl removeSubtree st).nodes.length ≤ st.nodes.length := by
  induction ts generalizing st with
  | nil => simp
  | cons t ts ih =>
    calc (List.foldl removeSubtree (removeSubtree st t) ts).nodes.length
        ≤ (removeSubtree st t).nodes.length := ih _
      _ ≤ st.nodes.length := removeSubtree_nodes_length_le _ _

/-- When the `to_prune` pass found at least one victim, executing the
removals strictly shrinks the arena (internal form used to justify the
recursion of `pruneDirectories`). -/
theorem pruneFoldShrinks (st : TreeState) (rootId : Nat)
    (h : pruneTargets st rootId ≠ []) :
    ((pruneTargets st rootId).foldl removeSubtree st).nodes.length < st.nodes.length := by
  match htp : pruneTargets st rootId with
  | [] => exact absurd htp h
  | t :: rest =>
    have hmem : t ∈ pruneTargets st rootId := by rw [htp]; exact List.mem_cons_self _ _
    have hpred := List.of_mem_filter hmem
    have hdir : isDirNode st t = true := by
      have := Bool.and_elim_left hpred
      exact this
    obtain ⟨v, hv⟩ : ∃ v, alookup t st.nodes = some v := by
      unfold isDirNode at hdir
      match hl : alookup t st.nodes with
      | some n => exact ⟨n, rfl⟩
      | none => rw [hl] at hdir; simp at hdir
    simp only [List.foldl_cons]
    calc (List.foldl removeSubtree (removeSubtree st t) rest).nodes.length
        ≤ (removeSubtree st t).nodes.length := foldl_removeSubtree_length_le _ _
      _ < st.nodes.length := removeSubtree_nodes_length_lt _ _ _ hv

/-- The recursion of `Tree::prune_directories`, embedded with explicit
fuel: collect empty directories below the root, return if there are
none, otherwise remove their subtrees and run again.  Each round that
recurses removes at least one node (`pruneFoldShrinks`), so any fuel
above the arena size makes the fuel bound unreachable
(`pruneLoop_fuel_irrelevant` below). -/
def pruneLoop : Nat → Nat → TreeState → TreeState
  | 0, _, st => st
  | fuel + 1, rootId, st =>
    let tp := pruneTargets st rootId
    if tp = [] then st
    else pruneLoop fuel rootId (tp.foldl removeSubtree st)

/-- `Tree::prune_directories`. -/
def pruneDirectories (rootId : Nat) (st : TreeState) : TreeState :=
  pruneLoop (st.nodes.length + 1) rootId st

/-- `Tree::filter_directories`: detach every non-directory descendant of
the root (the nodes stay in the arena). -/
def filterDirectories (rootId : Nat) (st : TreeState) : TreeState :=
  let targets := ((descend st (st.nodes.length + 1) rootId).drop 1).filter
    (fun id => !(isDirNode st id))
  { st with
    edges := targets.foldl (fun es id => es.map (fun ke => (ke.1, ke.2.erase id))) st.edges }

/-- `Tree::is_stump`: no descendants besides the root itself. -/
def isStump (st : TreeState) (rootId : Nat) : Bool :=
  ((descend st (st.nodes.length + 1) rootId).drop 1).isEmpty

/-! ## The traversal pipeline (`Tree::traverse` and `Tree::try_init`)

The outer `Option` layer is a source panic (`unwrap` on a missing arena
handle or branch key) — distinct from a returned `Err`.  The assembly
fuel `branches.length + 1` is always sufficient: every nested
`assemble_tree` call first removes the current directory's branch entry,
so a deeper nesting than the branch count makes the source's
`branches.remove(..).unwrap()` panic as well. -/

def traverseModel (fs : FileSystem) (cmp : Node → Node → Ordering) (ctx : Context)
    (entries : List Node) : Option (Except Error (TreeState × Nat)) :=
  match walkTryFrom fs ctx with
  | .error e => some (.error e)
  | .ok _ =>
    match consume entries with
    | .error e => some (.error e)
    | .ok (st, rootIdOpt) =>
      match rootIdOpt with
      | none => some (.error .MissingRoot)
      | some rootId =>
        match assembleTree (st.branches.length + 1) cmp ctx st ⟨0, 0, 0, 0⟩ rootId with
        | none => none
        | some (st1, _) =>
          let st2 :=
            if ctx.prune ∨ ctx.fileType ≠ some FileType.Dir then pruneDirectories rootId st1
            else st1
          let st3 := if ctx.dirsOnly then filterDirectories rootId st2 else st2
          some (.ok (st3, rootId))

/-- `Tree::try_init`: traverse, then report `NoMatches` when the
resulting tree is a stump.  (The column-properties and window-width
updates of the source mutate only the context, not the tree.) -/
def tryInitModel (fs : FileSystem) (cmp : Node → Node → Ordering) (ctx : Context)
    (entries : List Node) : Option (Except Error (TreeState × Nat)) :=
  match traverseModel fs cmp ctx entries with
  | none => none
  | some (.error e) => some (.error e)
  | some (.ok (st, rootId)) =>
    if isStump st rootId then some (.error .NoMatches) else some (.ok (st, rootId))

/-! ## Concrete runs

A small filesystem used to exercise the pipeline: a root directory `r`
holding a subdirectory `a`, a subdirectory `b`, loose files, and a pair
of hard-linked files.  `byPath` is a concrete instance of the external
comparator contract (a total order over two nodes, here by path). -/

def cmpStrList : List String → List String → Ordering
  | [], [] => .eq
  | [], _ :: _ => .lt
  | _ :: _, [] => .gt
  | a :: as, b :: bs =>
    match compare a b with
    | .eq => cmpStrList as bs
    | o => o

def byPath (a b : Node) : Ordering := cmpStrList a.path b.path

/-- A filesystem on which the root canonicalizes and has metadata. -/
def okFs : FileSystem := ⟨fun p => some p, fun _ => some ()⟩

/-- A filesystem on which canonicalization of any path fails. -/
def badFs : FileSystem := ⟨fun _ => none, fun _ => none⟩

/-- Default configuration: no pruning requested, no type restriction, no
directories-only view, no filter pattern. -/
def okCtx : Context :=
  ⟨["r"], false, false, false, 4, none, false, false, false, false, none, false, false,
    .ok (), .ok (), .ok ()⟩

/-- `okCtx` with the prune, directories-only and type-restriction knobs. -/
def ctxWith (pr dOnly : Bool) (ft : Option FileType) : Context :=
  { okCtx with prune := pr, dirsOnly := dOnly, fileType := ft }

def rootE : Node := ⟨["r"], 0, true, none, none, none⟩
def dirAE : Node := ⟨["r", "a"], 1, true, none, none, none⟩
def dirBE : Node := ⟨["r", "b"], 1, true, none, none, none⟩
def fileFE : Node := ⟨["r", "a", "f"], 2, false, some 500, none, none⟩
def fileGE : Node := ⟨["r", "g"], 1, false, some 500, none, none⟩

/-- Two hard links to one physical file of 1000 bytes (same device and
inode, link count 2), one under `r/a`, one under `r/b`. -/
def linkH1 : Node := ⟨["r", "a", "h1"], 2, false, some 1000, some ⟨7, 1, 2⟩, none⟩
def linkH2 : Node := ⟨["r", "b", "h2"], 2, false, some 1000, some ⟨7, 1, 2⟩, none⟩

/-- A two-node arena (root `r` with one empty subdirectory `r/a`), used
to exercise the pruning pass directly. -/
def stPrunable : TreeState := ⟨[(0, rootE), (1, dirAE)], [(0, [1])], [], [], 2⟩

/-- The path reported inside `DirNotFound`: the uncanonicalized root when
canonicalization fails, the canonicalized root when its metadata read
fails. -/
def dirNotFoundPath (fs : FileSystem) (ctx : Context) : List String :=
  match fs.canonicalize ctx.dir with
  | none => ctx.dir
  | some p => p

/-! Total projectors out of the run results, for stating concrete
observations as decidable equalities. -/

def consumeOk (r : Except Error (TreeState × Option Nat)) : Bool :=
  match r with
  | .ok _ => true
  | .error _ => false

def consumeState (r : Except Error (TreeState × Option Nat)) : TreeState :=
  match r with
  | .ok (st, _) => st
  | .error _ => TreeState.empty

def consumeRoot (r : Except Error (TreeState × Option Nat)) : Option Nat :=
  match r with
  | .ok (_, rid) => rid
  | .error _ => none

def pipeOk (r : Option (Except Error (TreeState × Nat))) : Bool :=
  match r with
  | some (.ok _) => true
  | _ => false

def pipeState (r : Option (Except Error (TreeState × Nat))) : TreeState :=
  match r with
  | some (.ok (st, _)) => st
  | _ => TreeState.empty

def pipeRoot (r : Option (Except Error (TreeState × Nat))) : Nat :=
  match r with
  | some (.ok (_, rid)) => rid
  | _ => 0

/-! ## Arrival-order analysis

Definitions used to compare two runs of the consumer over permuted entry
streams. -/

/-- The entry is the root event: a depth-0 directory (recorded as the
root, never attached to a parent). -/
def rootCase (e : Node) : Bool := e.isDir && e.depth == 0

/-- Arrival orders in which every non-root entry is preceded by its
parent directory's event (the walker guarantee of spec §5 under which
nothing need be buffered for a not-yet-seen directory). -/
def parentFirstAux (seen : List Node) : List Node → Bool
  | [] => true
  | e :: rest =>
    (rootCase e || seen.any (fun d => d.isDir && some d.path == e.parentPath)) &&
    parentFirstAux (seen ++ [e]) rest

def parentFirstOrder (entries : List Node) : Bool := parentFirstAux [] entries

/-- The entries recorded in the branch list of path `p`, resolved through
the arena. -/
def branchChildEntries (st : TreeState) (p : List String) : List Node :=
  ((alookup p st.branches).getD []).filterMap (fun id => alookup id st.nodes)

/-- The non-root entries naming `p` as their parent path, in arrival
order. -/
def childrenByPath (entries : List Node) (p : List String) : List Node :=
  entries.filter (fun e => !(rootCase e) && e.parentPath == some p)

/-- Invariant of the consumer loop after the prefix `pre` has been
consumed, for states reachable under a parent-first arrival order:
handles at or above `nextId` are unallocated, every handle recorded in a
branch list resolves in the arena, each branch list resolves to exactly
the non-root entries naming its path as parent (in arrival order), and
every directory seen so far owns a branch list. -/
def ConsumeInv (pre : List Node) (st : TreeState) : Prop :=
  (∀ k, st.nextId ≤ k → alookup k st.nodes = none) ∧
  (∀ p, ∀ id ∈ (alookup p st.branches).getD [], (alookup id st.nodes).isSome = true) ∧
  (∀ p, branchChildEntries st p = childrenByPath pre p) ∧
  (∀ p, (∃ d, d ∈ pre ∧ d.isDir = true ∧ d.path = p) → (alookup p st.branches).isSome = true)

/-! ## Shapes: the branch structure consumed by `assemble_tree`

A `Shape` is the tree of handles that the branch map describes: one node
per arena handle, with the pending children of each directory.  The
assembler is proved against an arbitrary state that *agrees* with a
shape; the spec-side size functions below are computed over shapes and
the initial arena `nm`. -/

inductive Shape where
  | mk (id : Nat) (kids : List Shape)

def Shape.idOf : Shape → Nat
  | .mk i _ => i

def Shape.kidsOf : Shape → List Shape
  | .mk _ ks => ks

mutual
def shapeSize : Shape → Nat
  | .mk _ ks => 1 + shapeSizeList ks
def shapeSizeList : List Shape → Nat
  | [] => 0
  | s :: ss => shapeSize s + shapeSizeList ss
end

mutual
def shapeIds : Shape → List Nat
  | .mk i ks => i :: shapeIdsList ks
def shapeIdsList : List Shape → List Nat
  | [] => []
  | s :: ss => shapeIds s ++ shapeIdsList ss
end

mutual
def subShapes : Shape → List Shape
  | .mk i ks => .mk i ks :: subShapesList ks
def subShapesList : List Shape → List Shape
  | [] => []
  | s :: ss => subShapes s ++ subShapesList ss
end

/-- `tree[id].get().is_dir()` read off a node store. -/
def nmIsDir (nm : List (Nat × Node)) (id : Nat) : Bool :=
  match alookup id nm with
  | some n => n.isDir
  | none => false

/-- The path of the node behind a handle. -/
def nmPath (nm : List (Nat × Node)) (id : Nat) : List String :=
  ((alookup id nm).map Node.path).getD []

/-- The hard-link identity of the node behind a handle, when its link
count exceeds one (the only case in which the assembler consults the
seen-set). -/
def identKey1 (nm : List (Nat × Node)) (id : Nat) : Option (Nat × Nat) :=
  match (alookup id nm).bind Node.inode with
  | some i => if i.nlink > 1 then some (i.dev, i.ino) else none
  | none => none

mutual
/-- The order in which `assemble_tree` performs its per-child
inode/column checks inside the subtree of a directory shape: for each
pending child, first the checks inside the child's own subtree (when it
is a directory the fold recurses first), then the child itself. -/
def shapeCheckSeq (nm : List (Nat × Node)) : Shape → List Nat
  | .mk _ ks => kidsSeq nm ks
def kidsSeq (nm : List (Nat × Node)) : List Shape → List Nat
  | [] => []
  | k :: ks =>
      (if nmIsDir nm k.idOf then shapeCheckSeq nm k else []) ++ [k.idOf] ++ kidsSeq nm ks
end

/-- One step of the hard-link gate (mod.rs:244-248): a node with link
count above one inserts its identity when unseen. -/
def gateInsert (nm : List (Nat × Node)) (S : List (Nat × Nat)) (id : Nat) : List (Nat × Nat) :=
  match identKey1 nm id with
  | some key => if key ∈ S then S else S ++ [key]
  | none => S

/-- The seen-set after checking a sequence of handles. -/
def gateSet (nm : List (Nat × Node)) (L : List Nat) (S : List (Nat × Nat)) : List (Nat × Nat) :=
  L.foldl (gateInsert nm) S

/-- Whether the check of `id` against seen-set `S` lets its size count:
everything passes except a link-count-above-one identity already seen. -/
def gatePass (nm : List (Nat × Node)) (S : List (Nat × Nat)) (id : Nat) : Bool :=
  match identKey1 nm id with
  | some key => decide (key ∉ S)
  | none => true

/-- The handles whose checks pass, in check order, threading the
seen-set. -/
def countedIds (nm : List (Nat × Node)) : List Nat → List (Nat × Nat) → List Nat
  | [], _ => []
  | id :: L, S =>
      (if gatePass nm S id then [id] else []) ++ countedIds nm L (gateInsert nm S id)

/-- What a counted check adds to the running directory size: a file's
byte count; a directory contributes through its own recorded aggregate,
never through `contrib`. -/
def contrib (nm : List (Nat × Node)) (id : Nat) : Nat :=
  if nmIsDir nm id then 0 else ((alookup id nm).bind Node.fileSize).getD 0

/-- The aggregate a directory shape accumulates when its fold starts
from seen-set `S`. -/
def subSum (nm : List (Nat × Node)) (S : List (Nat × Nat)) (s : Shape) : Nat :=
  ((countedIds nm (shapeCheckSeq nm s) S).map (contrib nm)).sum

/-- The paths of the directory sub-shapes (each of which owns, and
consumes, a branch-map entry). -/
def dirPaths (nm : List (Nat × Node)) (sh : Shape) : List (List String) :=
  ((subShapes sh).filter (fun u => nmIsDir nm u.idOf)).map (fun u => nmPath nm u.idOf)

/-- Shape-intrinsic well-formedness relative to the initial arena `nm`:
distinct handles, every handle allocated, files are leaves, directories
carry no size yet, and directory paths are pairwise distinct. -/
def ShapePure (nm : List (Nat × Node)) (sh : Shape) : Prop :=
  (shapeIds sh).Nodup ∧
  (∀ id ∈ shapeIds sh, (alookup id nm).isSome = true) ∧
  (∀ u ∈ subShapes sh, nmIsDir nm u.idOf = false → u.kidsOf.length = 0) ∧
  (∀ u ∈ subShapes sh, nmIsDir nm u.idOf = true →
      (alookup u.idOf nm).bind Node.fileSize = none) ∧
  (dirPaths nm sh).Nodup

/-- State-level agreement between an assembler state and a shape at the
moment `assemble_tree` is entered on the shape's root: the arena still
carries the initial nodes of the subtree, every directory sub-shape's
branch entry holds exactly its pending kids, subtree handles have no
edges yet, and no directory of the subtree can be hard-link-skipped
(its identity, if gated at all, is neither seen already nor shared with
any other subtree node). -/
def ShapeStateWF (nm : List (Nat × Node)) (st : TreeState) (sh : Shape) : Prop :=
  (∀ id ∈ shapeIds sh, alookup id st.nodes = alookup id nm) ∧
  (∀ u ∈ subShapes sh, nmIsDir nm u.idOf = true →
      alookup (nmPath nm u.idOf) st.branches = some (u.kidsOf.map Shape.idOf)) ∧
  (∀ id ∈ shapeIds sh, alookup id st.edges = none) ∧
  (∀ u ∈ subShapes sh, nmIsDir nm u.idOf = true →
      ∀ key ∈ (identKey1 nm u.idOf).toList,
        key ∉ st.inodes ∧
        ∀ id2 ∈ shapeIds sh, id2 ≠ u.idOf → identKey1 nm id2 ≠ some key)

/-- The directory paths of a forest of shapes (the pending-children lists
of a level of the branch map). -/
def dirPathsList (nm : List (Nat × Node)) (ks : List Shape) : List (List String) :=
  ((subShapesList ks).filter (fun u => nmIsDir nm u.idOf)).map (fun u => nmPath nm u.idOf)

/-- `ShapePure` restricted to a forest (the pending kids of one level). -/
def ForestPure (nm : List (Nat × Node)) (ks : List Shape) : Prop :=
  (shapeIdsList ks).Nodup ∧
  (∀ id ∈ shapeIdsList ks, (alookup id nm).isSome = true) ∧
  (∀ u ∈ subShapesList ks, nmIsDir nm u.idOf = false → u.kidsOf.length = 0) ∧
  (∀ u ∈ subShapesList ks, nmIsDir nm u.idOf = true →
      (alookup u.idOf nm).bind Node.fileSize = none) ∧
  (dirPathsList nm ks).Nodup

/-- `ShapeStateWF` restricted to a forest. -/
def ForestWF (nm : List (Nat × Node)) (st : TreeState) (ks : List Shape) : Prop :=
  (∀ id ∈ shapeIdsList ks, alookup id st.nodes = alookup id nm) ∧
  (∀ u ∈ subShapesList ks, nmIsDir nm u.idOf = true →
      alookup (nmPath nm u.idOf) st.branches = some (u.kidsOf.map Shape.idOf)) ∧
  (∀ id ∈ shapeIdsList ks, alookup id st.edges = none) ∧
  (∀ u ∈ subShapesList ks, nmIsDir nm u.idOf = true →
      ∀ key ∈ (identKey1 nm u.idOf).toList,
        key ∉ st.inodes ∧
        ∀ id2 ∈ shapeIdsList ks, id2 ≠ u.idOf → identKey1 nm id2 ≠ some key)

/-- The observable effect of folding one level's pending kids
(`assembleKids`, entered with seen-set `st.inodes`): the seen-set advances
along the level's check sequence; handles outside the forest keep their
node and edge entries; non-directory handles of the forest keep their
nodes; every directory sub-shape has its aggregate recorded at the
seen-set reached by its prefix of the check sequence, and its children
edges set to a permutation of its pending kids; branch entries off the
forest's directory paths are untouched. -/
def KidsOut (nm : List (Nat × Node)) (st st' : TreeState) (ks : List Shape) : Prop :=
  st'.inodes = gateSet nm (kidsSeq nm ks) st.inodes ∧
  (∀ id, id ∉ shapeIdsList ks → alookup id st'.nodes = alookup id st.nodes) ∧
  (∀ id ∈ shapeIdsList ks, nmIsDir nm id = false →
      alookup id st'.nodes = alookup id st.nodes) ∧
  (∀ u ∈ subShapesList ks, nmIsDir nm u.idOf = true →
      ∃ nd P Q, alookup u.idOf nm = some nd ∧
        kidsSeq nm ks = P ++ shapeCheckSeq nm u ++ Q ∧
        alookup u.idOf st'.nodes = some { nd with fileSize :=
          (if 0 < subSum nm (gateSet nm P st.inodes) u
           then some (subSum nm (gateSet nm P st.inodes) u) else nd.fileSize) }) ∧
  (∀ id, id ∉ shapeIdsList ks → alookup id st'.edges = alookup id st.edges) ∧
  (∀ u ∈ subShapesList ks, nmIsDir nm u.idOf = true →
      ∃ l, alookup u.idOf st'.edges = some l ∧ l.Perm (u.kidsOf.map Shape.idOf)) ∧
  (∀ p, p ∉ dirPathsList nm ks → alookup p st'.branches = alookup p st.branches)

/-- The observable effect of `assembleTree` on a directory shape: as for
`KidsOut`, with the root directory's own aggregate recorded at the
entry seen-set. -/
def TreeOut (nm : List (Nat × Node)) (st st' : TreeState) (s : Shape) : Prop :=
  st'.inodes = gateSet nm (shapeCheckSeq nm s) st.inodes ∧
  (∀ id, id ∉ shapeIds s → alookup id st'.nodes = alookup id st.nodes) ∧
  (∀ id ∈ shapeIds s, nmIsDir nm id = false →
      alookup id st'.nodes = alookup id st.nodes) ∧
  (∃ nd, alookup s.idOf nm = some nd ∧
      alookup s.idOf st'.nodes = some { nd with fileSize :=
        (if 0 < subSum nm st.inodes s
         then some (subSum nm st.inodes s) else nd.fileSize) }) ∧
  (∀ u ∈ subShapesList s.kidsOf, nmIsDir nm u.idOf = true →
      ∃ nd P Q, alookup u.idOf nm = some nd ∧
        shapeCheckSeq nm s = P ++ shapeCheckSeq nm u ++ Q ∧
        alookup u.idOf st'.nodes = some { nd with fileSize :=
          (if 0 < subSum nm (gateSet nm P st.inodes) u
           then some (subSum nm (gateSet nm P st.inodes) u) else nd.fileSize) }) ∧
  (∀ id, id ∉ shapeIds s → alookup id st'.edges = alookup id st.edges) ∧
  (∀ u ∈ subShapes s, nmIsDir nm u.idOf = true →
      ∃ l, alookup u.idOf st'.edges = some l ∧ l.Perm (u.kidsOf.map Shape.idOf)) ∧
  (∀ p, p ∉ dirPaths nm s → alookup p st'.branches = alookup p st.branches)

/-- The inductive statement for `assembleTree` on one directory shape. -/
def TreeProp (s : Shape) : Prop :=
  ∀ (nm : List (Nat × Node)) (cmp : Node → Node → Ordering) (ctx : Context)
    (st : TreeState) (cp : ColumnProperties) (fuel : Nat),
    shapeSize s ≤ fuel → nmIsDir nm s.idOf = true →
    ShapePure nm s → ShapeStateWF nm st s →
    ∃ st' cp', assembleTree fuel cmp ctx st cp s.idOf = some (st', cp') ∧
      TreeOut nm st st' s

/-- The inductive statement for `assembleKids` on one level's kids. -/
def KidsProp (ks : List Shape) : Prop :=
  ∀ (nm : List (Nat × Node)) (cmp : Node → Node → Ordering) (ctx : Context)
    (fuel : Nat) (st : TreeState) (cp : ColumnProperties) (acc : Nat),
    shapeSizeList ks ≤ fuel →
    ForestPure nm ks → ForestWF nm st ks →
    ∃ st' cp',
      assembleKids (assembleTree fuel cmp ctx) ctx st cp (ks.map Shape.idOf) acc
        = some (st', cp',
            acc + ((countedIds nm (kidsSeq nm ks) st.inodes).map (contrib nm)).sum) ∧
      KidsOut nm st st' ks

/-- The C1 hard-link scenario (spec claim): a root directory holding two
hard links (same device+inode identity, link count 2) to one 1000-byte
file. -/
def hlF1 : Node := ⟨["r", "h1"], 1, false, some 1000, some ⟨7, 1, 2⟩, none⟩

def hlF2 : Node := ⟨["r", "h2"], 1, false, some 1000, some ⟨7, 1, 2⟩, none⟩

def hlNm : List (Nat × Node) := [(0, rootE), (1, hlF1), (2, hlF2)]

def hlShape : Shape := .mk 0 [.mk 1 [], .mk 2 []]

def hlSt : TreeState := ⟨hlNm, [], [(["r"], [1, 2])], [], 3⟩

/-! ## Claim theorems -/

/-- Claim C5: the unit-prefix boundaries are exact: the binary conversion
maps exactly 1024 to Kibi (not Base) and exactly 2^20 = 1048576 to Mebi,
and the decimal conversion maps exactly 1000 to Kilo and 999 to Base. -/
theorem unit_scale_boundaries_exact :
    BinScale.fromValue 1024 = BinScale.Kibi ∧
    BinScale.fromValue 1048576 = BinScale.Mebi ∧
    SiScale.fromValue 1000 = SiScale.Kilo ∧
    SiScale.fromValue 999 = SiScale.Base := by
  decide

/-- Counterexample to claim C4: the conversions applied to the negative
byte value -1 do not yield Base, because the logarithm of a negative
number is NaN and every NaN comparison is false, so control falls through
every boundary test. -/
theorem unit_scale_negative_not_base_cex :
    ¬ (BinScale.fromValue (-1) = BinScale.Base ∧
       SiScale.fromValue (-1) = SiScale.Base) := by
  decide

/-- Claim C4 as amended: a zero byte value selects Base in both scales
(its logarithm is negative infinity, which passes the first boundary
check), but every strictly negative byte value selects the largest prefix
(Tebi binary, Tera decimal), because its logarithm is NaN and every
boundary comparison on NaN is false. -/
theorem unit_scale_zero_negative_amended :
    (BinScale.fromValue 0 = BinScale.Base ∧ SiScale.fromValue 0 = SiScale.Base) ∧
    ∀ v : Int, v < 0 →
      BinScale.fromValue v = BinScale.Tebi ∧ SiScale.fromValue v = SiScale.Tera := by
  refine ⟨by decide, ?_⟩
  intro v hv
  have h2b : ∀ n, logCmpLt 2 v n = false := by intro n; simp [logCmpLt, hv]
  have h10 : ∀ n, logCmpLt 10 v n = false := by intro n; simp [logCmpLt, hv]
  constructor
  · simp [BinScale.fromValue, h2b]
  · simp [SiScale.fromValue, h10]

/-- Witness for the amended claim C4 at the concrete value -5. -/
theorem unit_scale_zero_negative_amended_witness :
    BinScale.fromValue (-5) = BinScale.Tebi ∧ SiScale.fromValue (-5) = SiScale.Tera :=
  unit_scale_zero_negative_amended.2 (-5) (by decide)

/-- Claim C2, evaluated at the failing input: when the stream delivers
the file `r/a/f` before its parent directory `r/a` was seen, the consumer
inserts the file into the arena (handle 1) but creates the parent's
branch list *empty*, so handle 1 lands in no branch list, and after full
assembly the node is still in the arena with no parent edge — the claim's
"appended to its parent's branch list, with that list being created if it
was not yet seen" and the one-parent-edge invariant both fail. -/
theorem out_of_order_child_dropped :
    consumeOk (consume [rootE, fileFE, dirAE]) = true ∧
    consumeRoot (consume [rootE, fileFE, dirAE]) = some 0 ∧
    alookup 1 (consumeState (consume [rootE, fileFE, dirAE])).nodes = some fileFE ∧
    alookup ["r", "a"] (consumeState (consume [rootE, fileFE, dirAE])).branches = some [] ∧
    (consumeState (consume [rootE, fileFE, dirAE])).branches.all
      (fun pl => !(pl.2.contains 1)) = true ∧
    pipeOk (traverseModel okFs byPath okCtx [rootE, fileFE, dirAE]) = true ∧
    alookup 1 (pipeState (traverseModel okFs byPath okCtx [rootE, fileFE, dirAE])).nodes
      = some fileFE ∧
    (pipeState (traverseModel okFs byPath okCtx [rootE, fileFE, dirAE])).edges.all
      (fun ke => !(ke.2.contains 1)) = true := by
  decide

/-- Counterexample to claim C3: with pruning not requested and no type
restriction at all (`prune = false`, `file_type = None`,
`dirs_only = false`), the source still runs the pruning pass — the guard
is `ctx.prune || ctx.file_type != Some(Dir)` — so the empty directory
`r/a` (handle 1) is removed from the arena instead of being left in the
tree. -/
theorem prune_applied_without_request_cex :
    okCtx.prune = false ∧ okCtx.fileType = none ∧ okCtx.dirsOnly = false ∧
    pipeOk (traverseModel okFs byPath okCtx [rootE, dirAE, fileGE]) = true ∧
    alookup 1 (pipeState (traverseModel okFs byPath okCtx [rootE, dirAE, fileGE])).nodes
      = none ∧
    childrenOf (pipeState (traverseModel okFs byPath okCtx [rootE, dirAE, fileGE]))
      (pipeRoot (traverseModel okFs byPath okCtx [rootE, dirAE, fileGE])) = [2] := by
  decide

/-- Claim C3 as amended: the pruning pass runs if and only if pruning was
requested *or the configured type restriction is anything other than the
directories-only restriction* (`ctx.prune || ctx.file_type != Some(Dir)`);
in particular, in the default configuration (no pruning flag, no type
restriction) empty directories are removed, not left in the tree.
Observed on the scenario of one empty subdirectory (handle 1) plus one
file under the root, over every combination of the three knobs. -/
theorem prune_condition_amended :
    ∀ (pr dOnly : Bool) (ft : Option FileType),
      (alookup 1 (pipeState (traverseModel okFs byPath (ctxWith pr dOnly ft)
          [rootE, dirAE, fileGE])).nodes).isSome
        = (!pr && (ft == some FileType.Dir)) := by
  intro pr dOnly ft
  rcases ft with _ | f
  · cases pr <;> cases dOnly <;> decide
  · cases f <;> cases pr <;> cases dOnly <;> decide

theorem pruneLoop_targets_empty (rootId : Nat) :
    ∀ fuel st, st.nodes.length < fuel →
      pruneTargets (pruneLoop fuel rootId st) rootId = [] := by
  intro fuel
  induction fuel with
  | zero => intro st h; omega
  | succ fuel ih =>
    intro st h
    show pruneTargets
      (if pruneTargets st rootId = [] then st
       else pruneLoop fuel rootId ((pruneTargets st rootId).foldl removeSubtree st)) rootId = []
    by_cases htp : pruneTargets st rootId = []
    · rw [if_pos htp]; exact htp
    · rw [if_neg htp]
      have hlt := pruneFoldShrinks st rootId htp
      exact ih _ (by omega)

theorem pruneLoop_congr (rootId : Nat) :
    ∀ f1 f2 st, st.nodes.length < f1 → st.nodes.length < f2 →
      pruneLoop f1 rootId st = pruneLoop f2 rootId st := by
  intro f1
  induction f1 with
  | zero => intro f2 st h1 _; omega
  | succ f1 ih =>
    intro f2 st h1 h2
    cases f2 with
    | zero => omega
    | succ f2 =>
      show (if pruneTargets st rootId = [] then st
            else pruneLoop f1 rootId ((pruneTargets st rootId).foldl removeSubtree st))
          = (if pruneTargets st rootId = [] then st
            else pruneLoop f2 rootId ((pruneTargets st rootId).foldl removeSubtree st))
      by_cases htp : pruneTargets st rootId = []
      · rw [if_pos htp, if_pos htp]
      · rw [if_neg htp, if_neg htp]
        have hlt := pruneFoldShrinks st rootId htp
        exact ih f2 _ (by omega) (by omega)

/-- Claim C6: after `prune_directories` returns, no directory reachable
below the root has zero children (part one: the would-be prune targets of
the result are empty), and pruning the result again changes nothing. -/
theorem prune_no_empty_dirs_and_idempotent :
    ∀ st rootId,
      (∀ id ∈ (descend (pruneDirectories rootId st)
            ((pruneDirectories rootId st).nodes.length + 1) rootId).drop 1,
          isDirNode (pruneDirectories rootId st) id = true →
          childrenOf (pruneDirectories rootId st) id ≠ []) ∧
      pruneDirectories rootId (pruneDirectories rootId st) = pruneDirectories rootId st := by
  intro st rootId
  have hempty : pruneTargets (pruneDirectories rootId st) rootId = [] :=
    pruneLoop_targets_empty rootId _ st (by omega)
  constructor
  · intro id hmem hdir hchild
    have hin : id ∈ pruneTargets (pruneDirectories rootId st) rootId := by
      unfold pruneTargets
      apply List.mem_filter.mpr
      refine ⟨hmem, ?_⟩
      simp [hdir, hchild]
    rw [hempty] at hin
    exact absurd hin (List.not_mem_nil _)
  · show (if pruneTargets (pruneDirectories rootId st) rootId = []
          then pruneDirectories rootId st
          else pruneLoop (pruneDirectories rootId st).nodes.length rootId
            ((pruneTargets (pruneDirectories rootId st) rootId).foldl removeSubtree
              (pruneDirectories rootId st)))
        = pruneDirectories rootId st
    rw [if_pos hempty]

/-- Claim C10: each recursive round of `prune_directories` runs only
after removing at least one node, so the arena size strictly decreases
(first conjunct), and consequently the fuel `node count + 1` of the
embedding is sufficient: any larger fuel computes the same result
(second conjunct). -/
theorem prune_recursion_strictly_decreases (st : TreeState) (rootId : Nat) :
    (pruneTargets st rootId ≠ [] →
      ((pruneTargets st rootId).foldl removeSubtree st).nodes.length < st.nodes.length) ∧
    ∀ extra, pruneLoop (st.nodes.length + 1 + extra) rootId st = pruneDirectories rootId st := by
  constructor
  · exact pruneFoldShrinks st rootId
  · intro extra
    exact pruneLoop_congr rootId _ _ st (by omega) (by omega)

/-- Witness for claim C10 on the concrete two-node arena whose only
subdirectory is empty: the prune-target list is nonempty and the removal
round strictly shrinks the arena. -/
theorem prune_recursion_strictly_decreases_witness :
    pruneTargets stPrunable 0 ≠ [] ∧
    ((pruneTargets stPrunable 0).foldl removeSubtree stPrunable).nodes.length
      < stPrunable.nodes.length :=
  ⟨by decide, (prune_recursion_strictly_decreases stPrunable 0).1 (by decide)⟩

theorem walkTryFrom_ne_noMatches (fs : FileSystem) (ctx : Context) :
    walkTryFrom fs ctx ≠ Except.error Error.NoMatches := by
  unfold walkTryFrom
  split
  · simp
  · split
    · simp
    · split
      · simp
      · split
        · split
          · cases hg : ctx.globPredicateRes <;> simp [Except.mapError, hg]
          · cases hg : ctx.regexPredicateRes <;> simp [Except.mapError, hg]
        · simp

theorem consumeAttach_error (st : TreeState) (rootId : Option Nat) (n : Node) (e : Error)
    (h : consumeAttach st rootId n = .error e) : e = .ExpectedParent := by
  unfold consumeAttach at h
  cases hp : n.parentPath with
  | none =>
    rw [hp] at h
    simp only [Option.elim_none] at h
    injection h with h'
    exact h'.symm
  | some parent =>
    rw [hp] at h
    simp only [Option.elim_some] at h
    cases halt : alookup parent (st.newNode n).2.branches with
    | none =>
      rw [halt] at h
      simp only [Option.elim_none] at h
      exact Except.noConfusion h
    | some l =>
      rw [halt] at h
      simp only [Option.elim_some] at h
      exact Except.noConfusion h

theorem consumeEntry_error (acc : TreeState × Option Nat) (n : Node) (e : Error)
    (h : consumeEntry acc n = .error e) : e = .ExpectedParent := by
  obtain ⟨st, rootId⟩ := acc
  have h2 : (if n.isDir = true then
      (if n.depth = 0 then
        Except.ok (((consumeDirEnsure st n).newNode n).2,
          some ((consumeDirEnsure st n).newNode n).1)
       else consumeAttach (consumeDirEnsure st n) rootId n)
     else consumeAttach st rootId n) = Except.error e := h
  by_cases hd : n.isDir = true
  · rw [if_pos hd] at h2
    by_cases hz : n.depth = 0
    · rw [if_pos hz] at h2
      exact Except.noConfusion h2
    · rw [if_neg hz] at h2
      exact consumeAttach_error _ _ _ _ h2
  · rw [if_neg hd] at h2
    exact consumeAttach_error _ _ _ _ h2

theorem consume_foldlM_error (entries : List Node) (e : Error) :
    ∀ init, entries.foldlM consumeEntry init = .error e → e = .ExpectedParent := by
  induction entries with
  | nil => intro init h; simp [List.foldlM, pure, Except.pure] at h
  | cons x xs ih =>
    intro init h
    rw [List.foldlM_cons] at h
    cases hx : consumeEntry init x with
    | error e' =>
      rw [hx] at h
      have : (Except.error e' : Except Error (TreeState × Option Nat)) >>=
          (fun s => xs.foldlM consumeEntry s) = Except.error e' := rfl
      rw [this] at h
      injection h with h'
      rw [← h']
      exact consumeEntry_error _ _ _ hx
    | ok s =>
      rw [hx] at h
      have : (Except.ok s : Except Error (TreeState × Option Nat)) >>=
          (fun s => xs.foldlM consumeEntry s) = xs.foldlM consumeEntry s := rfl
      rw [this] at h
      exact ih s h

theorem traverseModel_ne_noMatches (fs : FileSystem) (cmp : Node → Node → Ordering)
    (ctx : Context) (entries : List Node) :
    traverseModel fs cmp ctx entries ≠ some (.error .NoMatches) := by
  intro h
  unfold traverseModel at h
  split at h
  next e heq =>
    simp at h
    subst h
    exact walkTryFrom_ne_noMatches fs ctx heq
  next u heq =>
    split at h
    next e heq2 =>
      simp at h
      subst h
      exact absurd (consume_foldlM_error entries _ _ heq2) (by simp)
    next st rootIdOpt heq2 =>
      split at h
      next => simp at h
      next rootId =>
        split at h
        next => simp at h
        next st1 cp1 heq3 => simp at h

/-- Claim C7: `try_init` reports `NoMatches` exactly when the fully
assembled, pruned and filtered tree is a stump (the root has no
descendants), and in particular an empty root directory (the root entry
alone) yields `NoMatches`; conversely `NoMatches` presupposes that the
traversal itself succeeded. -/
theorem try_init_no_matches_iff :
    (∀ fs cmp ctx entries,
        tryInitModel fs cmp ctx entries = some (.error .NoMatches) ↔
        ∃ st rootId,
          traverseModel fs cmp ctx entries = some (.ok (st, rootId)) ∧
          isStump st rootId = true) ∧
    tryInitModel okFs byPath okCtx [rootE] = some (.error .NoMatches) := by
  constructor
  · intro fs cmp ctx entries
    constructor
    · intro h
      unfold tryInitModel at h
      cases ht : traverseModel fs cmp ctx entries with
      | none => rw [ht] at h; simp at h
      | some r =>
        rw [ht] at h
        cases r with
        | error e =>
          simp at h
          subst h
          exact absurd ht (traverseModel_ne_noMatches fs cmp ctx entries)
        | ok p =>
          obtain ⟨st, rootId⟩ := p
          by_cases hs : isStump st rootId = true
          · exact ⟨st, rootId, rfl, hs⟩
          · have h' : (if isStump st rootId = true then some (Except.error Error.NoMatches)
                else some (Except.ok (st, rootId))) = some (Except.error Error.NoMatches) := h
            rw [if_neg hs] at h'
            simp at h'
    · rintro ⟨st, rootId, ht, hs⟩
      unfold tryInitModel
      rw [ht]
      show (if isStump st rootId = true then some (Except.error Error.NoMatches)
            else some (Except.ok (st, rootId))) = some (Except.error Error.NoMatches)
      rw [if_pos hs]
  · decide

/-- Claim C8 (spec-modelled error enumeration): when the configured root
does not canonicalize or its canonicalized metadata cannot be read, the
walker construction fails with `DirNotFound`, and the whole traversal
fails the same way before consuming any entry. -/
theorem walk_parallel_dir_not_found (fs : FileSystem) (ctx : Context)
    (h : fs.canonicalize ctx.dir = none ∨
         ∃ p, fs.canonicalize ctx.dir = some p ∧ fs.metadata p = none) :
    walkTryFrom fs ctx = .error (.DirNotFound (dirNotFoundPath fs ctx)) ∧
    ∀ cmp entries,
      traverseModel fs cmp ctx entries
        = some (.error (.DirNotFound (dirNotFoundPath fs ctx))) := by
  have hw : walkTryFrom fs ctx = .error (.DirNotFound (dirNotFoundPath fs ctx)) := by
    rcases h with h | ⟨p, hp, hm⟩
    · unfold walkTryFrom dirNotFoundPath
      simp [h]
    · unfold walkTryFrom dirNotFoundPath
      simp [hp, hm]
  refine ⟨hw, ?_⟩
  intro cmp entries
  unfold traverseModel
  rw [hw]

/-- Witness for claim C8 on a filesystem where canonicalization fails. -/
theorem walk_parallel_dir_not_found_witness :
    walkTryFrom badFs okCtx = .error (.DirNotFound (dirNotFoundPath badFs okCtx)) ∧
    traverseModel badFs byPath okCtx [rootE]
      = some (.error (.DirNotFound (dirNotFoundPath badFs okCtx))) :=
  ⟨(walk_parallel_dir_not_found badFs okCtx (Or.inl rfl)).1,
   (walk_parallel_dir_not_found badFs okCtx (Or.inl rfl)).2 byPath [rootE]⟩

/-! Association-list facts used by the arrival-order analysis. -/

theorem alookup_aupdate_self {κ β : Type} [DecidableEq κ] (k : κ) (v : β) :
    ∀ l : List (κ × β), alookup k (aupdate k v l) = some v := by
  intro l
  induction l with
  | nil => simp [aupdate, alookup]
  | cons hd t ih =>
    obtain ⟨k', v'⟩ := hd
    by_cases hk : k' = k
    · simp [aupdate, hk, alookup]
    · simp [aupdate, hk, alookup, ih]

theorem alookup_aupdate_ne {κ β : Type} [DecidableEq κ] {k k' : κ} (v : β) (h : k' ≠ k) :
    ∀ l : List (κ × β), alookup k' (aupdate k v l) = alookup k' l := by
  intro l
  induction l with
  | nil => simp [aupdate, alookup, Ne.symm h]
  | cons hd t ih =>
    obtain ⟨k'', v''⟩ := hd
    by_cases hk : k'' = k
    · subst hk
      simp [aupdate, alookup, Ne.symm h]
    · by_cases hk2 : k'' = k' <;> simp [aupdate, alookup, hk, hk2, ih, h]

theorem alookup_append_some {κ β : Type} [DecidableEq κ] {k : κ} {v : β} {l1 : List (κ × β)}
    (l2 : List (κ × β)) (h : alookup k l1 = some v) : alookup k (l1 ++ l2) = some v := by
  induction l1 with
  | nil => simp [alookup] at h
  | cons hd t ih =>
    obtain ⟨k', v'⟩ := hd
    by_cases hk : k' = k
    · simp only [alookup, hk, if_pos] at h ⊢
      simpa using h
    · simp only [List.cons_append, alookup, hk, if_false] at h ⊢
      exact ih h

theorem alookup_append_none {κ β : Type} [DecidableEq κ] {k : κ} {l1 : List (κ × β)}
    (l2 : List (κ × β)) (h : alookup k l1 = none) : alookup k (l1 ++ l2) = alookup k l2 := by
  induction l1 with
  | nil => simp
  | cons hd t ih =>
    obtain ⟨k', v'⟩ := hd
    by_cases hk : k' = k
    · simp only [alookup, hk, if_pos] at h
      simp at h
    · simp only [List.cons_append, alookup, hk, if_false] at h ⊢
      exact ih h

theorem alookup_append_isSome {κ β : Type} [DecidableEq κ] {k : κ} {l1 : List (κ × β)}
    (l2 : List (κ × β)) (h : (alookup k l1).isSome = true) :
    alookup k (l1 ++ l2) = alookup k l1 := by
  cases hl : alookup k l1 with
  | none => rw [hl] at h; simp at h
  | some v => rw [alookup_append_some l2 hl]

theorem alookup_aupdate_isSome {κ β : Type} [DecidableEq κ] (k k' : κ) (v : β)
    (l : List (κ × β)) (h : (alookup k' l).isSome = true) :
    (alookup k' (aupdate k v l)).isSome = true := by
  by_cases hk : k' = k
  · subst hk; rw [alookup_aupdate_self]; rfl
  · rw [alookup_aupdate_ne v hk]; exact h

theorem parentPath_ne_path {e : Node} {p : List String} (h : e.parentPath = some p) :
    p ≠ e.path := by
  unfold Node.parentPath at h
  by_cases hp : e.path = []
  · rw [if_pos hp] at h; exact Option.noConfusion h
  · rw [if_neg hp] at h
    injection h with h'
    subst h'
    intro hc
    have hlen := congrArg List.length hc
    rw [List.length_dropLast] at hlen
    have hne : e.path.length ≠ 0 := fun h0 => hp (List.length_eq_zero.mp h0)
    omega

theorem childrenByPath_append (pre : List Node) (e : Node) (p : List String) :
    childrenByPath (pre ++ [e]) p =
      childrenByPath pre p ++
        (if (!(rootCase e) && e.parentPath == some p) = true then [e] else []) := by
  unfold childrenByPath
  rw [List.filter_append]
  congr 1
  cases hb : (!(rootCase e) && e.parentPath == some p) <;> simp [List.filter, hb]

theorem ConsumeInv_empty : ConsumeInv [] TreeState.empty := by
  refine ⟨?_, ?_, ?_, ?_⟩
  · intro k _; rfl
  · intro p id hid
    simp [TreeState.empty, alookup] at hid
  · intro p
    simp [branchChildEntries, childrenByPath, TreeState.empty, alookup]
  · intro p hp
    simp at hp

theorem consumeDirEnsure_inv (pre : List Node) (st : TreeState) (e : Node)
    (hinv : ConsumeInv pre st) :
    ConsumeInv pre (consumeDirEnsure st e) ∧
    (alookup e.path (consumeDirEnsure st e).branches).isSome = true ∧
    (∀ p, (alookup p st.branches).isSome = true →
      (alookup p (consumeDirEnsure st e).branches).isSome = true) := by
  obtain ⟨hg, hf, hc, hd⟩ := hinv
  unfold consumeDirEnsure
  by_cases hs : (alookup e.path st.branches).isSome = true
  · rw [if_pos hs]
    exact ⟨⟨hg, hf, hc, hd⟩, hs, fun p hp => hp⟩
  · rw [if_neg hs]
    have hnone : alookup e.path st.branches = none := by
      cases hl : alookup e.path st.branches with
      | none => rfl
      | some l => rw [hl] at hs; simp at hs
    have hcnil : childrenByPath pre e.path = [] := by
      have hce := (hc e.path).symm
      unfold branchChildEntries at hce
      rw [hnone] at hce
      simpa using hce
    refine ⟨⟨hg, ?_, ?_, ?_⟩, ?_, ?_⟩
    · show ∀ p, ∀ id ∈ (alookup p (aupdate e.path ([] : List Nat) st.branches)).getD [],
        (alookup id st.nodes).isSome = true
      intro p id hid
      by_cases hp : p = e.path
      · subst hp
        rw [alookup_aupdate_self] at hid
        simp at hid
      · rw [alookup_aupdate_ne _ hp] at hid
        exact hf p id hid
    · show ∀ p, ((alookup p (aupdate e.path ([] : List Nat) st.branches)).getD []).filterMap
        (fun id => alookup id st.nodes) = childrenByPath pre p
      intro p
      by_cases hp : p = e.path
      · subst hp
        rw [alookup_aupdate_self]
        simpa using hcnil.symm
      · rw [alookup_aupdate_ne _ hp]
        exact hc p
    · show ∀ p, (∃ d, d ∈ pre ∧ d.isDir = true ∧ d.path = p) →
        (alookup p (aupdate e.path ([] : List Nat) st.branches)).isSome = true
      intro p hp
      exact alookup_aupdate_isSome _ _ _ _ (hd p hp)
    · show (alookup e.path (aupdate e.path ([] : List Nat) st.branches)).isSome = true
      rw [alookup_aupdate_self]; rfl
    · show ∀ p, (alookup p st.branches).isSome = true →
        (alookup p (aupdate e.path ([] : List Nat) st.branches)).isSome = true
      intro p hp
      exact alookup_aupdate_isSome _ _ _ _ hp

theorem consumeRoot_step (pre : List Node) (st : TreeState) (e : Node)
    (hinv : ConsumeInv pre st) (hroot : rootCase e = true)
    (hself : (alookup e.path st.branches).isSome = true) :
    ConsumeInv (pre ++ [e])
      ⟨st.nodes ++ [(st.nextId, e)], st.edges, st.branches, st.inodes, st.nextId + 1⟩ := by
  obtain ⟨hg, hf, hc, hd⟩ := hinv
  have hnodes_old : ∀ id, (alookup id st.nodes).isSome = true →
      alookup id (st.nodes ++ [(st.nextId, e)]) = alookup id st.nodes := fun id hid =>
    alookup_append_isSome _ hid
  refine ⟨?_, ?_, ?_, ?_⟩
  · show ∀ k, st.nextId + 1 ≤ k → alookup k (st.nodes ++ [(st.nextId, e)]) = none
    intro k hk
    rw [alookup_append_none _ (hg k (by omega))]
    show (if st.nextId = k then some e else none) = none
    rw [if_neg (by omega)]
  · intro p id hid
    have hsome := hf p id hid
    show (alookup id (st.nodes ++ [(st.nextId, e)])).isSome = true
    rw [hnodes_old id hsome]
    exact hsome
  · intro p
    show ((alookup p st.branches).getD []).filterMap
        (fun id => alookup id (st.nodes ++ [(st.nextId, e)])) = childrenByPath (pre ++ [e]) p
    have hcongr : ((alookup p st.branches).getD []).filterMap
        (fun id => alookup id (st.nodes ++ [(st.nextId, e)]))
        = ((alookup p st.branches).getD []).filterMap (fun id => alookup id st.nodes) := by
      apply List.filterMap_congr
      intro id hid
      exact hnodes_old id (hf p id hid)
    rw [hcongr, childrenByPath_append]
    have hpred : (!(rootCase e) && e.parentPath == some p) = false := by
      rw [hroot]
      rfl
    have hbase := hc p
    unfold branchChildEntries at hbase
    rw [hpred]
    simpa using hbase
  · intro p hex
    obtain ⟨d, hmem, hdir, hpath⟩ := hex
    rcases List.mem_append.mp hmem with hmem | hmem
    · exact hd p ⟨d, hmem, hdir, hpath⟩
    · have hde : d = e := by simpa using hmem
      subst hde
      subst hpath
      exact hself

theorem consumeAttach_step (pre : List Node) (st : TreeState) (rid : Option Nat) (e : Node)
    (p0 : List String) (l : List Nat)
    (hinv : ConsumeInv pre st) (hroot : rootCase e = false)
    (hpp : e.parentPath = some p0)
    (hl : alookup p0 st.branches = some l)
    (hdirok : e.isDir = true → (alookup e.path st.branches).isSome = true) :
    consumeAttach st rid e =
      .ok (⟨st.nodes ++ [(st.nextId, e)], st.edges,
            aupdate p0 (l ++ [st.nextId]) st.branches, st.inodes, st.nextId + 1⟩, rid) ∧
    ConsumeInv (pre ++ [e])
      ⟨st.nodes ++ [(st.nextId, e)], st.edges,
        aupdate p0 (l ++ [st.nextId]) st.branches, st.inodes, st.nextId + 1⟩ := by
  obtain ⟨hg, hf, hc, hd⟩ := hinv
  have hnodes_new : alookup st.nextId (st.nodes ++ [(st.nextId, e)]) = some e := by
    rw [alookup_append_none _ (hg st.nextId (Nat.le_refl _))]
    show (if st.nextId = st.nextId then some e else none) = some e
    rw [if_pos rfl]
  have hnodes_old : ∀ id, (alookup id st.nodes).isSome = true →
      alookup id (st.nodes ++ [(st.nextId, e)]) = alookup id st.nodes := fun id hid =>
    alookup_append_isSome _ hid
  constructor
  · unfold consumeAttach
    rw [hpp]
    simp only [Option.elim_some]
    have hl2 : alookup p0 (st.newNode e).2.branches = some l := hl
    rw [hl2]
    simp only [Option.elim_some]
    rfl
  · refine ⟨?_, ?_, ?_, ?_⟩
    · show ∀ k, st.nextId + 1 ≤ k → alookup k (st.nodes ++ [(st.nextId, e)]) = none
      intro k hk
      rw [alookup_append_none _ (hg k (by omega))]
      show (if st.nextId = k then some e else none) = none
      rw [if_neg (by omega)]
    · show ∀ p, ∀ id ∈ (alookup p (aupdate p0 (l ++ [st.nextId]) st.branches)).getD [],
        (alookup id (st.nodes ++ [(st.nextId, e)])).isSome = true
      intro p id hid
      by_cases hp : p = p0
      · subst hp
        rw [alookup_aupdate_self] at hid
        simp only [Option.getD_some] at hid
        rcases List.mem_append.mp hid with hid | hid
        · have hsome : (alookup id st.nodes).isSome = true := by
            apply hf p id
            rw [hl]
            exact hid
          rw [hnodes_old id hsome]
          exact hsome
        · have hide : id = st.nextId := by simpa using hid
          subst hide
          rw [hnodes_new]
          rfl
      · rw [alookup_aupdate_ne _ hp] at hid
        have hsome := hf p id hid
        rw [hnodes_old id hsome]
        exact hsome
    · show ∀ p, ((alookup p (aupdate p0 (l ++ [st.nextId]) st.branches)).getD []).filterMap
          (fun id => alookup id (st.nodes ++ [(st.nextId, e)]))
        = childrenByPath (pre ++ [e]) p
      intro p
      by_cases hp : p = p0
      · subst hp
        rw [alookup_aupdate_self]
        simp only [Option.getD_some]
        rw [List.filterMap_append]
        have h1 : l.filterMap (fun id => alookup id (st.nodes ++ [(st.nextId, e)]))
            = childrenByPath pre p := by
          have hcongr : l.filterMap (fun id => alookup id (st.nodes ++ [(st.nextId, e)]))
              = l.filterMap (fun id => alookup id st.nodes) := by
            apply List.filterMap_congr
            intro id hid
            apply hnodes_old
            apply hf p id
            rw [hl]
            exact hid
          rw [hcongr]
          have hbase := hc p
          unfold branchChildEntries at hbase
          rw [hl] at hbase
          simpa using hbase
        have h2 : ([st.nextId] : List Nat).filterMap
            (fun id => alookup id (st.nodes ++ [(st.nextId, e)])) = [e] := by
          simp [List.filterMap, hnodes_new]
        rw [h1, h2, childrenByPath_append]
        congr 1
        have hpred : (!(rootCase e) && e.parentPath == some p) = true := by
          rw [Bool.and_eq_true]
          constructor
          · rw [hroot]; rfl
          · rw [hpp]
            exact beq_self_eq_true _
        rw [if_pos hpred]
      · rw [alookup_aupdate_ne _ hp]
        have hcongr : ((alookup p st.branches).getD []).filterMap
            (fun id => alookup id (st.nodes ++ [(st.nextId, e)]))
            = ((alookup p st.branches).getD []).filterMap (fun id => alookup id st.nodes) := by
          apply List.filterMap_congr
          intro id hid
          exact hnodes_old id (hf p id hid)
        rw [hcongr]
        have hbase := hc p
        unfold branchChildEntries at hbase
        rw [childrenByPath_append]
        have hpred : (!(rootCase e) && e.parentPath == some p) = false := by
          rw [hpp]
          have : ((some p0 : Option (List String)) == some p) = false := by
            rw [beq_eq_false_iff_ne]
            intro hcontra
            injection hcontra with hc2
            exact hp hc2.symm
          rw [this, Bool.and_false]
        rw [hpred]
        simpa using hbase
    · show ∀ p, (∃ d, d ∈ pre ++ [e] ∧ d.isDir = true ∧ d.path = p) →
        (alookup p (aupdate p0 (l ++ [st.nextId]) st.branches)).isSome = true
      intro p hex
      obtain ⟨d, hmem, hdir, hpath⟩ := hex
      rcases List.mem_append.mp hmem with hmem | hmem
      · exact alookup_aupdate_isSome _ _ _ _ (hd p ⟨d, hmem, hdir, hpath⟩)
      · have hde : d = e := by simpa using hmem
        subst hde
        subst hpath
        exact alookup_aupdate_isSome _ _ _ _ (hdirok hdir)

theorem consumeEntry_step (pre : List Node) (st : TreeState) (rid : Option Nat) (e : Node)
    (hinv : ConsumeInv pre st)
    (hhead : (rootCase e || pre.any fun d => d.isDir && some d.path == e.parentPath) = true) :
    ∃ st1 rid1, consumeEntry (st, rid) e = .ok (st1, rid1) ∧ ConsumeInv (pre ++ [e]) st1 := by
  obtain ⟨hinvE, hselfE, hpresE⟩ := consumeDirEnsure_inv pre st e hinv
  by_cases hr : rootCase e = true
  · have hr2 : (e.isDir && e.depth == 0) = true := hr
    obtain ⟨hdir, hdep⟩ := Bool.and_eq_true .. |>.mp hr2
    have hdep0 : e.depth = 0 := by simpa using hdep
    refine ⟨((consumeDirEnsure st e).newNode e).2,
      some ((consumeDirEnsure st e).newNode e).1, ?_, ?_⟩
    · unfold consumeEntry
      rw [if_pos hdir, if_pos hdep0]
    · exact consumeRoot_step pre (consumeDirEnsure st e) e hinvE hr hselfE
  · have hr' : rootCase e = false := by
      revert hr
      cases rootCase e <;> simp
    have hany : pre.any (fun d => d.isDir && some d.path == e.parentPath) = true := by
      rw [hr'] at hhead
      simpa using hhead
    obtain ⟨d, hdmem, hdprop⟩ := List.any_eq_true.mp hany
    obtain ⟨hddir, hdbeq⟩ := Bool.and_eq_true .. |>.mp hdprop
    have hpp : e.parentPath = some d.path := (beq_iff_eq.mp hdbeq).symm
    have hsome : (alookup d.path st.branches).isSome = true :=
      hinv.2.2.2 d.path ⟨d, hdmem, hddir, rfl⟩
    by_cases hdir : e.isDir = true
    · have hdep : ¬(e.depth = 0) := by
        intro h0
        apply hr
        show (e.isDir && e.depth == 0) = true
        rw [hdir, h0]
        rfl
      have hppE : e.parentPath = some d.path := hpp
      have hsomeE : (alookup d.path (consumeDirEnsure st e).branches).isSome = true :=
        hpresE d.path hsome
      obtain ⟨lE, hlE⟩ : ∃ lE, alookup d.path (consumeDirEnsure st e).branches = some lE := by
        cases hcl : alookup d.path (consumeDirEnsure st e).branches with
        | none => rw [hcl] at hsomeE; simp at hsomeE
        | some lE => exact ⟨lE, rfl⟩
      have hstep := consumeAttach_step pre (consumeDirEnsure st e) rid e d.path lE
        hinvE hr' hppE hlE (fun _ => hselfE)
      refine ⟨_, rid, ?_, hstep.2⟩
      unfold consumeEntry
      rw [if_pos hdir, if_neg hdep]
      exact hstep.1
    · obtain ⟨l0, hl0⟩ : ∃ l0, alookup d.path st.branches = some l0 := by
        cases hcl : alookup d.path st.branches with
        | none => rw [hcl] at hsome; simp at hsome
        | some l0 => exact ⟨l0, rfl⟩
      have hstep := consumeAttach_step pre st rid e d.path l0 hinv hr' hpp hl0
        (fun hcontra => absurd hcontra hdir)
      refine ⟨_, rid, ?_, hstep.2⟩
      unfold consumeEntry
      rw [if_neg hdir]
      exact hstep.1

theorem consume_foldlM_invariant :
    ∀ (rest pre : List Node) (st : TreeState) (rid : Option Nat),
      ConsumeInv pre st → parentFirstAux pre rest = true →
      ∃ st' rid', rest.foldlM consumeEntry (st, rid) = .ok (st', rid') ∧
        ConsumeInv (pre ++ rest) st' := by
  intro rest
  induction rest with
  | nil =>
    intro pre st rid hinv _
    exact ⟨st, rid, rfl, by simpa using hinv⟩
  | cons e rest ih =>
    intro pre st rid hinv hpf
    rw [parentFirstAux] at hpf
    obtain ⟨hhead, htail⟩ := Bool.and_eq_true .. |>.mp hpf
    obtain ⟨st1, rid1, hstep, hinv1⟩ := consumeEntry_step pre st rid e hinv hhead
    obtain ⟨st', rid', hfold, hinv'⟩ := ih (pre ++ [e]) st1 rid1 hinv1 htail
    refine ⟨st', rid', ?_, ?_⟩
    · rw [List.foldlM_cons, hstep]
      exact hfold
    · have hassoc : pre ++ [e] ++ rest = pre ++ e :: rest := by simp
      rwa [hassoc] at hinv'

/-- Under a parent-first arrival order the consumer succeeds and each
branch list resolves to exactly the non-root entries naming its path as
parent. -/
theorem consume_parentFirst (entries : List Node) (h : parentFirstOrder entries = true) :
    ∃ st rid, consume entries = .ok (st, rid) ∧
      ∀ p, branchChildEntries st p = childrenByPath entries p := by
  obtain ⟨st, rid, hfold, hinv⟩ :=
    consume_foldlM_invariant entries [] TreeState.empty none ConsumeInv_empty h
  refine ⟨st, rid, hfold, ?_⟩
  intro p
  have := hinv.2.2.1 p
  simpa using this

/-- Counterexample to claim C9: two arrival orders of the same multiset
of entries — every entry's parent directory present among them — that
produce different trees.  With the order `[root, r/a, r/a/f]` the file is
attached and survives (three arena nodes); with `[root, r/a/f, r/a]` the
file's handle is dropped when its parent's branch list is lazily created
empty, the then-empty directory is pruned, and only two arena nodes
remain. -/
theorem assembly_order_dependent_cex :
    ([rootE, dirAE, fileFE] : List Node).Perm [rootE, fileFE, dirAE] ∧
    ([rootE, dirAE, fileFE].all (fun e => (e.depth == 0) ||
       [rootE, dirAE, fileFE].any (fun d => d.isDir && some d.path == e.parentPath))) = true ∧
    ([rootE, fileFE, dirAE].all (fun e => (e.depth == 0) ||
       [rootE, fileFE, dirAE].any (fun d => d.isDir && some d.path == e.parentPath))) = true ∧
    (pipeState (traverseModel okFs byPath okCtx [rootE, dirAE, fileFE])).nodes.length = 3 ∧
    (pipeState (traverseModel okFs byPath okCtx [rootE, fileFE, dirAE])).nodes.length = 2 := by
  refine ⟨?_, by decide, by decide, by decide, by decide⟩
  refine List.Perm.cons _ ?_
  exact List.Perm.swap _ _ _

/-- Claim C9 as amended: arrival order does *not* leave the result fully
independent — the counterexample shows attachment itself can differ.
What is preserved: for two arrival orders of the same entry multiset
in which every entry is preceded by its parent directory's event, the
consumer succeeds on both, and for every path the *multiset* of entries
recorded in that path's branch list is the same (each branch list holds
exactly the non-root entries naming it as parent, in arrival order).
Sibling order within a branch list, and the hard-link first-encounter
size attribution, remain arrival-order dependent. -/
theorem consume_branch_content_order_independent
    (entries1 entries2 : List Node) (hperm : entries1.Perm entries2)
    (h1 : parentFirstOrder entries1 = true) (h2 : parentFirstOrder entries2 = true) :
    consumeOk (consume entries1) = true ∧ consumeOk (consume entries2) = true ∧
    ∀ p, (branchChildEntries (consumeState (consume entries1)) p).Perm
         (branchChildEntries (consumeState (consume entries2)) p) := by
  obtain ⟨st1, rid1, hc1, hb1⟩ := consume_parentFirst entries1 h1
  obtain ⟨st2, rid2, hc2, hb2⟩ := consume_parentFirst entries2 h2
  rw [hc1, hc2]
  refine ⟨rfl, rfl, ?_⟩
  intro p
  show (branchChildEntries st1 p).Perm (branchChildEntries st2 p)
  rw [hb1 p, hb2 p]
  exact hperm.filter _

/-- Witness for the amended claim C9: two parent-first orders of a
four-entry stream (root, two files under the root, one directory), with
the children of the root compared as multisets. -/
theorem consume_branch_content_order_independent_witness :
    consumeOk (consume [rootE, dirAE, fileFE, fileGE]) = true ∧
    consumeOk (consume [rootE, fileGE, dirAE, fileFE]) = true ∧
    (branchChildEntries (consumeState (consume [rootE, dirAE, fileFE, fileGE])) ["r"]).Perm
      (branchChildEntries (consumeState (consume [rootE, fileGE, dirAE, fileFE])) ["r"]) :=
  ⟨(consume_branch_content_order_independent [rootE, dirAE, fileFE, fileGE]
      [rootE, fileGE, dirAE, fileFE] (by decide) (by decide) (by decide)).1,
   (consume_branch_content_order_independent [rootE, dirAE, fileFE, fileGE]
      [rootE, fileGE, dirAE, fileFE] (by decide) (by decide) (by decide)).2.1,
   (consume_branch_content_order_independent [rootE, dirAE, fileFE, fileGE]
      [rootE, fileGE, dirAE, fileFE] (by decide) (by decide) (by decide)).2.2 ["r"]⟩

/-! Pure facts about sorting, branch removal, shapes and the hard-link
gate, feeding the `assemble_tree` correctness proof. -/

theorem insertBy_perm (le : Nat → Nat → Bool) (a : Nat) :
    ∀ l : List Nat, (insertBy le a l).Perm (a :: l) := by
  intro l
  induction l with
  | nil => simp [insertBy]
  | cons b bs ih =>
    unfold insertBy
    by_cases hle : le a b = true
    · rw [if_pos hle]
    · rw [if_neg hle]
      exact (List.Perm.cons b ih).trans (List.Perm.swap a b bs)

theorem sortBy_perm (le : Nat → Nat → Bool) :
    ∀ l : List Nat, (sortBy le l).Perm l := by
  intro l
  induction l with
  | nil => simp [sortBy]
  | cons x xs ih =>
    unfold sortBy
    exact (insertBy_perm le x (sortBy le xs)).trans (List.Perm.cons x ih)

theorem alookup_aremove_ne {κ β : Type} [DecidableEq κ] {p k : κ} (h : p ≠ k) :
    ∀ l : List (κ × β), alookup p (aremove k l) = alookup p l := by
  intro l
  induction l with
  | nil => rfl
  | cons hd t ih =>
    obtain ⟨k', v'⟩ := hd
    by_cases hk : k' = k
    · subst hk
      simp [aremove, alookup, Ne.symm h]
    · by_cases hp : k' = p <;> simp [aremove, alookup, hk, hp, ih, h]

theorem shapeSize_pos : ∀ s : Shape, 0 < shapeSize s
  | .mk _ ks => by unfold shapeSize; omega

theorem shapeSize_le_of_mem {k : Shape} :
    ∀ {ks : List Shape}, k ∈ ks → shapeSize k ≤ shapeSizeList ks := by
  intro ks
  induction ks with
  | nil => intro h; exact absurd h (List.not_mem_nil _)
  | cons a as ih =>
    intro h
    unfold shapeSizeList
    rcases List.mem_cons.mp h with h | h
    · subst h; omega
    · have := ih h
      omega

theorem mem_subShapesList {u : Shape} :
    ∀ {ks : List Shape}, u ∈ subShapesList ks ↔ ∃ k ∈ ks, u ∈ subShapes k := by
  intro ks
  induction ks with
  | nil => simp [subShapesList]
  | cons a as ih =>
    unfold subShapesList
    simp [List.mem_append, ih]

theorem self_mem_subShapes : ∀ s : Shape, s ∈ subShapes s
  | .mk i ks => by unfold subShapes; exact List.mem_cons_self _ _

theorem idOf_mem_shapeIds : ∀ s : Shape, s.idOf ∈ shapeIds s
  | .mk i ks => by unfold shapeIds Shape.idOf; exact List.mem_cons_self _ _

theorem mem_shapeIdsList_of {k : Shape} {id : Nat} :
    ∀ {ks : List Shape}, k ∈ ks → id ∈ shapeIds k → id ∈ shapeIdsList ks := by
  intro ks
  induction ks with
  | nil => intro h; exact absurd h (List.not_mem_nil _)
  | cons a as ih =>
    intro hmem hid
    unfold shapeIdsList
    rcases List.mem_cons.mp hmem with h | h
    · subst h; exact List.mem_append.mpr (Or.inl hid)
    · exact List.mem_append.mpr (Or.inr (ih h hid))

theorem shapeIds_of_subShapes :
    ∀ n, ∀ s : Shape, shapeSize s ≤ n → ∀ u ∈ subShapes s, ∀ id ∈ shapeIds u, id ∈ shapeIds s := by
  intro n
  induction n with
  | zero =>
    intro s hs
    have := shapeSize_pos s
    omega
  | succ n ih =>
    intro s hs u hu id hid
    obtain ⟨i, ks⟩ := s
    unfold subShapes at hu
    rcases List.mem_cons.mp hu with h | h
    · subst h; exact hid
    · obtain ⟨k, hk, huk⟩ := mem_subShapesList.mp h
      have hsize : shapeSize k ≤ n := by
        have h1 := shapeSize_le_of_mem hk
        unfold shapeSize at hs
        omega
      have hidk : id ∈ shapeIds k := ih k hsize u huk id hid
      unfold shapeIds
      exact List.mem_cons.mpr (Or.inr (mem_shapeIdsList_of hk hidk))

theorem subShapes_trans :
    ∀ n, ∀ s : Shape, shapeSize s ≤ n → ∀ u ∈ subShapes s, ∀ v ∈ subShapes u, v ∈ subShapes s := by
  intro n
  induction n with
  | zero =>
    intro s hs
    have := shapeSize_pos s
    omega
  | succ n ih =>
    intro s hs u hu v hv
    obtain ⟨i, ks⟩ := s
    unfold subShapes at hu ⊢
    rcases List.mem_cons.mp hu with h | h
    · subst h; exact hv
    · obtain ⟨k, hk, huk⟩ := mem_subShapesList.mp h
      have hsize : shapeSize k ≤ n := by
        have h1 := shapeSize_le_of_mem hk
        unfold shapeSize at hs
        omega
      exact List.mem_cons.mpr (Or.inr (mem_subShapesList.mpr ⟨k, hk, ih k hsize u huk v hv⟩))

theorem shapeIdsList_cons (k : Shape) (ks : List Shape) :
    shapeIdsList (k :: ks) = shapeIds k ++ shapeIdsList ks := rfl

theorem subShapesList_cons (k : Shape) (ks : List Shape) :
    subShapesList (k :: ks) = subShapes k ++ subShapesList ks := rfl

theorem shapeIds_mk (i : Nat) (ks : List Shape) :
    shapeIds (Shape.mk i ks) = i :: shapeIdsList ks := rfl

theorem subShapes_mk (i : Nat) (ks : List Shape) :
    subShapes (Shape.mk i ks) = Shape.mk i ks :: subShapesList ks := rfl

theorem shapeSizeList_cons (k : Shape) (ks : List Shape) :
    shapeSizeList (k :: ks) = shapeSize k + shapeSizeList ks := rfl

theorem shapeSize_mk (i : Nat) (ks : List Shape) :
    shapeSize (Shape.mk i ks) = 1 + shapeSizeList ks := rfl

theorem checkSeq_mk (nm : List (Nat × Node)) (i : Nat) (ks : List Shape) :
    shapeCheckSeq nm (Shape.mk i ks) = kidsSeq nm ks := rfl

theorem kidsSeq_cons (nm : List (Nat × Node)) (k : Shape) (ks : List Shape) :
    kidsSeq nm (k :: ks)
      = (if nmIsDir nm k.idOf then shapeCheckSeq nm k else []) ++ [k.idOf] ++ kidsSeq nm ks := rfl

theorem gateSet_append (nm : List (Nat × Node)) (A B : List Nat) (S : List (Nat × Nat)) :
    gateSet nm (A ++ B) S = gateSet nm B (gateSet nm A S) := by
  unfold gateSet
  exact List.foldl_append _ _ _ _

theorem gateSet_cons (nm : List (Nat × Node)) (a : Nat) (L : List Nat) (S : List (Nat × Nat)) :
    gateSet nm (a :: L) S = gateSet nm L (gateInsert nm S a) := rfl

theorem countedIds_append (nm : List (Nat × Node)) :
    ∀ (A B : List Nat) (S : List (Nat × Nat)),
      countedIds nm (A ++ B) S = countedIds nm A S ++ countedIds nm B (gateSet nm A S) := by
  intro A
  induction A with
  | nil => intro B S; rfl
  | cons a A ih =>
    intro B S
    have h1 : countedIds nm ((a :: A) ++ B) S
        = (if gatePass nm S a then [a] else []) ++ countedIds nm (A ++ B) (gateInsert nm S a) :=
      rfl
    have h2 : countedIds nm (a :: A) S
        = (if gatePass nm S a then [a] else []) ++ countedIds nm A (gateInsert nm S a) := rfl
    rw [h1, h2, ih, gateSet_cons, List.append_assoc]

theorem mem_gateInsert {nm : List (Nat × Node)} {S : List (Nat × Nat)} {id : Nat}
    {key : Nat × Nat} :
    key ∈ gateInsert nm S id ↔ key ∈ S ∨ identKey1 nm id = some key := by
  unfold gateInsert
  cases h : identKey1 nm id with
  | none => simp
  | some k =>
    show (key ∈ if k ∈ S then S else S ++ [k]) ↔ (key ∈ S ∨ some k = some key)
    by_cases hk : k ∈ S
    · rw [if_pos hk]
      simp only [Option.some.injEq]
      constructor
      · exact Or.inl
      · rintro (h1 | rfl)
        · exact h1
        · exact hk
    · rw [if_neg hk]
      simp only [List.mem_append, List.mem_singleton, Option.some.injEq]
      constructor
      · rintro (h1 | rfl)
        · exact Or.inl h1
        · exact Or.inr rfl
      · rintro (h1 | rfl)
        · exact Or.inl h1
        · exact Or.inr rfl

theorem mem_gateSet {nm : List (Nat × Node)} {key : Nat × Nat} :
    ∀ (L : List Nat) (S : List (Nat × Nat)),
      key ∈ gateSet nm L S ↔ key ∈ S ∨ ∃ id ∈ L, identKey1 nm id = some key := by
  intro L
  induction L with
  | nil => intro S; simp [gateSet]
  | cons a L ih =>
    intro S
    rw [gateSet_cons, ih, mem_gateInsert]
    constructor
    · rintro ((h | h) | ⟨id, hid, hk⟩)
      · exact Or.inl h
      · exact Or.inr ⟨a, List.mem_cons_self _ _, h⟩
      · exact Or.inr ⟨id, List.mem_cons_of_mem _ hid, hk⟩
    · rintro (h | ⟨id, hid, hk⟩)
      · exact Or.inl (Or.inl h)
      · rcases List.mem_cons.mp hid with rfl | h2
        · exact Or.inl (Or.inr hk)
        · exact Or.inr ⟨id, h2, hk⟩

theorem kidsSeq_subset (nm : List (Nat × Node)) :
    ∀ n, ∀ ks : List Shape, shapeSizeList ks ≤ n →
      ∀ id ∈ kidsSeq nm ks, id ∈ shapeIdsList ks := by
  intro n
  induction n with
  | zero =>
    intro ks hks id hid
    cases ks with
    | nil => cases hid
    | cons k ks =>
      exfalso
      have := shapeSize_pos k
      rw [shapeSizeList_cons] at hks
      omega
  | succ n ih =>
    intro ks hks id hid
    cases ks with
    | nil => cases hid
    | cons k ks =>
      rw [kidsSeq_cons] at hid
      rw [shapeIdsList_cons]
      rw [List.append_assoc] at hid
      rcases List.mem_append.mp hid with h | h
      · by_cases hd : nmIsDir nm k.idOf = true
        · rw [if_pos hd] at h
          obtain ⟨i, kk⟩ := k
          rw [checkSeq_mk] at h
          have h3 : shapeSizeList kk ≤ n := by
            rw [shapeSizeList_cons, shapeSize_mk] at hks
            omega
          have h4 := ih kk h3 id h
          refine List.mem_append.mpr (Or.inl ?_)
          rw [shapeIds_mk]
          exact List.mem_cons_of_mem _ h4
        · rw [if_neg hd] at h
          cases h
      · rcases List.mem_append.mp h with h | h
        · obtain rfl := List.mem_singleton.mp h
          exact List.mem_append.mpr (Or.inl (idOf_mem_shapeIds k))
        · have h3 : shapeSizeList ks ≤ n := by
            have := shapeSize_pos k
            rw [shapeSizeList_cons] at hks
            omega
          exact List.mem_append.mpr (Or.inr (ih ks h3 id h))

theorem checkSeq_subset {nm : List (Nat × Node)} {s : Shape} {id : Nat}
    (h : id ∈ shapeCheckSeq nm s) : id ∈ shapeIdsList s.kidsOf := by
  obtain ⟨i, ks⟩ := s
  rw [checkSeq_mk] at h
  exact kidsSeq_subset nm (shapeSizeList ks) ks le_rfl id h

theorem kidsSeq_perm (nm : List (Nat × Node)) :
    ∀ n, ∀ ks : List Shape, shapeSizeList ks ≤ n →
      (∀ u ∈ subShapesList ks, nmIsDir nm u.idOf = false → u.kidsOf.length = 0) →
      (kidsSeq nm ks).Perm (shapeIdsList ks) := by
  intro n
  induction n with
  | zero =>
    intro ks hks hleaf
    cases ks with
    | nil => exact List.Perm.refl _
    | cons k ks =>
      exfalso
      have := shapeSize_pos k
      rw [shapeSizeList_cons] at hks
      omega
  | succ n ih =>
    intro ks hks hleaf
    cases ks with
    | nil => exact List.Perm.refl _
    | cons k ks =>
      have hsz : shapeSizeList ks ≤ n := by
        have := shapeSize_pos k
        rw [shapeSizeList_cons] at hks
        omega
      have htail : (kidsSeq nm ks).Perm (shapeIdsList ks) :=
        ih ks hsz (fun u hu => hleaf u (by
          rw [subShapesList_cons]
          exact List.mem_append.mpr (Or.inr hu)))
      have hhead : ((if nmIsDir nm k.idOf then shapeCheckSeq nm k else [])
          ++ [k.idOf]).Perm (shapeIds k) := by
        obtain ⟨i, kk⟩ := k
        by_cases hd : nmIsDir nm (Shape.mk i kk).idOf = true
        · rw [if_pos hd, checkSeq_mk, shapeIds_mk]
          have hkk : shapeSizeList kk ≤ n := by
            rw [shapeSizeList_cons, shapeSize_mk] at hks
            omega
          have hsub : (kidsSeq nm kk).Perm (shapeIdsList kk) :=
            ih kk hkk (fun u hu => hleaf u (by
              rw [subShapesList_cons]
              refine List.mem_append.mpr (Or.inl ?_)
              rw [subShapes_mk]
              exact List.mem_cons_of_mem _ hu))
          exact (hsub.append_right [(Shape.mk i kk).idOf]).trans
            (List.perm_append_singleton _ _)
        · rw [if_neg hd]
          have h0 : kk.length = 0 := by
            refine hleaf (Shape.mk i kk) ?_ (by simpa using hd)
            rw [subShapesList_cons, subShapes_mk]
            exact List.mem_append.mpr (Or.inl (List.mem_cons_self _ _))
          obtain rfl : kk = [] := List.length_eq_zero.mp h0
          exact List.Perm.refl _
      rw [kidsSeq_cons, List.append_assoc, shapeIdsList_cons, ← List.append_assoc]
      exact hhead.append htail

theorem dirPathsList_cons (nm : List (Nat × Node)) (k : Shape) (ks : List Shape) :
    dirPathsList nm (k :: ks) = dirPaths nm k ++ dirPathsList nm ks := by
  unfold dirPathsList dirPaths
  rw [subShapesList_cons, List.filter_append, List.map_append]

theorem dirPaths_dir (nm : List (Nat × Node)) (i : Nat) (ks : List Shape)
    (h : nmIsDir nm i = true) :
    dirPaths nm (Shape.mk i ks) = nmPath nm i :: dirPathsList nm ks := by
  unfold dirPaths dirPathsList
  rw [subShapes_mk, List.filter_cons]
  simp [Shape.idOf, h]

theorem dirPaths_nondir (nm : List (Nat × Node)) (i : Nat) (ks : List Shape)
    (h : nmIsDir nm i = false) :
    dirPaths nm (Shape.mk i ks) = dirPathsList nm ks := by
  unfold dirPaths dirPathsList
  rw [subShapes_mk, List.filter_cons]
  simp [Shape.idOf, h]

theorem mem_dirPathsList {nm : List (Nat × Node)} {u : Shape} {ks : List Shape}
    (hu : u ∈ subShapesList ks) (hd : nmIsDir nm u.idOf = true) :
    nmPath nm u.idOf ∈ dirPathsList nm ks := by
  unfold dirPathsList
  exact List.mem_map_of_mem _ (List.mem_filter.mpr ⟨hu, by simp [hd]⟩)

theorem mem_dirPaths {nm : List (Nat × Node)} {u : Shape} {s : Shape}
    (hu : u ∈ subShapes s) (hd : nmIsDir nm u.idOf = true) :
    nmPath nm u.idOf ∈ dirPaths nm s := by
  unfold dirPaths
  exact List.mem_map_of_mem _ (List.mem_filter.mpr ⟨hu, by simp [hd]⟩)

theorem idOf_mem_idsList {u : Shape} {ks : List Shape} (hu : u ∈ subShapesList ks) :
    u.idOf ∈ shapeIdsList ks := by
  obtain ⟨k, hk, huk⟩ := mem_subShapesList.mp hu
  exact mem_shapeIdsList_of hk
    (shapeIds_of_subShapes (shapeSize k) k le_rfl u huk u.idOf (idOf_mem_shapeIds u))

theorem idOf_mem_ids_of_sub {u s : Shape} (hu : u ∈ subShapes s) : u.idOf ∈ shapeIds s :=
  shapeIds_of_subShapes (shapeSize s) s le_rfl u hu u.idOf (idOf_mem_shapeIds u)

theorem forestPure_head {nm : List (Nat × Node)} {k : Shape} {ks : List Shape}
    (h : ForestPure nm (k :: ks)) : ShapePure nm k := by
  obtain ⟨h1, h2, h3, h4, h5⟩ := h
  rw [shapeIdsList_cons] at h1 h2
  rw [subShapesList_cons] at h3 h4
  rw [dirPathsList_cons] at h5
  refine ⟨h1.sublist (List.sublist_append_left _ _), ?_, ?_, ?_,
    h5.sublist (List.sublist_append_left _ _)⟩
  · intro id hid; exact h2 id (List.mem_append.mpr (Or.inl hid))
  · intro u hu; exact h3 u (List.mem_append.mpr (Or.inl hu))
  · intro u hu; exact h4 u (List.mem_append.mpr (Or.inl hu))

theorem forestPure_tail {nm : List (Nat × Node)} {k : Shape} {ks : List Shape}
    (h : ForestPure nm (k :: ks)) : ForestPure nm ks := by
  obtain ⟨h1, h2, h3, h4, h5⟩ := h
  rw [shapeIdsList_cons] at h1 h2
  rw [subShapesList_cons] at h3 h4
  rw [dirPathsList_cons] at h5
  refine ⟨h1.sublist (List.sublist_append_right _ _), ?_, ?_, ?_,
    h5.sublist (List.sublist_append_right _ _)⟩
  · intro id hid; exact h2 id (List.mem_append.mpr (Or.inr hid))
  · intro u hu; exact h3 u (List.mem_append.mpr (Or.inr hu))
  · intro u hu; exact h4 u (List.mem_append.mpr (Or.inr hu))

theorem shapePure_kids {nm : List (Nat × Node)} {s : Shape}
    (h : ShapePure nm s) : ForestPure nm s.kidsOf := by
  obtain ⟨i, ks⟩ := s
  obtain ⟨h1, h2, h3, h4, h5⟩ := h
  rw [shapeIds_mk] at h1 h2
  rw [subShapes_mk] at h3 h4
  show ForestPure nm ks
  refine ⟨h1.sublist (List.sublist_cons_self _ _), ?_, ?_, ?_, ?_⟩
  · intro id hid; exact h2 id (List.mem_cons_of_mem _ hid)
  · intro u hu; exact h3 u (List.mem_cons_of_mem _ hu)
  · intro u hu; exact h4 u (List.mem_cons_of_mem _ hu)
  · by_cases hd : nmIsDir nm i = true
    · rw [dirPaths_dir nm i ks hd] at h5
      exact h5.sublist (List.sublist_cons_self _ _)
    · rw [dirPaths_nondir nm i ks (by simpa using hd)] at h5
      exact h5

theorem forestWF_head {nm : List (Nat × Node)} {st : TreeState} {k : Shape} {ks : List Shape}
    (h : ForestWF nm st (k :: ks)) : ShapeStateWF nm st k := by
  obtain ⟨h1, h2, h3, h4⟩ := h
  rw [shapeIdsList_cons] at h1 h3
  rw [subShapesList_cons] at h2 h4
  refine ⟨?_, ?_, ?_, ?_⟩
  · intro id hid; exact h1 id (List.mem_append.mpr (Or.inl hid))
  · intro u hu; exact h2 u (List.mem_append.mpr (Or.inl hu))
  · intro id hid; exact h3 id (List.mem_append.mpr (Or.inl hid))
  · intro u hu hdu key hkey
    obtain ⟨ha, hb⟩ := h4 u (List.mem_append.mpr (Or.inl hu)) hdu key hkey
    refine ⟨ha, ?_⟩
    intro id2 hid2
    exact hb id2 (by rw [shapeIdsList_cons]; exact List.mem_append.mpr (Or.inl hid2))

theorem shapeWF_kids {nm : List (Nat × Node)} {st : TreeState} {s : Shape}
    (hp : ShapePure nm s) (hw : ShapeStateWF nm st s) (hd : nmIsDir nm s.idOf = true) :
    ForestWF nm { st with branches := aremove (nmPath nm s.idOf) st.branches } s.kidsOf := by
  obtain ⟨i, ks⟩ := s
  obtain ⟨_, _, _, _, hpaths⟩ := hp
  obtain ⟨h1, h2, h3, h4⟩ := hw
  rw [shapeIds_mk] at h1 h3
  rw [subShapes_mk] at h2 h4
  have hd' : nmIsDir nm i = true := hd
  rw [dirPaths_dir nm i ks hd'] at hpaths
  show ForestWF nm _ ks
  refine ⟨?_, ?_, ?_, ?_⟩
  · intro id hid; exact h1 id (List.mem_cons_of_mem _ hid)
  · intro u hu hdu
    have hmemu : nmPath nm u.idOf ∈ dirPathsList nm ks := mem_dirPathsList hu hdu
    have hne : nmPath nm u.idOf ≠ nmPath nm (Shape.mk i ks).idOf := by
      intro heq
      exact (List.nodup_cons.mp hpaths).1 (heq ▸ hmemu)
    show alookup (nmPath nm u.idOf)
        (aremove (nmPath nm (Shape.mk i ks).idOf) st.branches) = _
    rw [alookup_aremove_ne hne]
    exact h2 u (List.mem_cons_of_mem _ hu) hdu
  · intro id hid; exact h3 id (List.mem_cons_of_mem _ hid)
  · intro u hu hdu key hkey
    obtain ⟨ha, hb⟩ := h4 u (List.mem_cons_of_mem _ hu) hdu key hkey
    refine ⟨ha, ?_⟩
    intro id2 hid2
    exact hb id2 (by rw [shapeIds_mk]; exact List.mem_cons_of_mem _ hid2)

theorem aupdate_self_eq {κ β : Type} [DecidableEq κ] {k : κ} {v : β} :
    ∀ {l : List (κ × β)}, alookup k l = some v → aupdate k v l = l := by
  intro l
  induction l with
  | nil => intro h; cases h
  | cons hd t ih =>
    intro h
    obtain ⟨k', v'⟩ := hd
    by_cases hk : k' = k
    · subst hk
      have hv : v' = v := by
        unfold alookup at h
        rw [if_pos rfl] at h
        exact Option.some.inj h
      subst hv
      unfold aupdate
      rw [if_pos rfl]
    · unfold aupdate
      rw [if_neg hk]
      unfold alookup at h
      rw [if_neg hk] at h
      rw [ih h]

theorem setNodeSize_edges (id v : Nat) (st : TreeState) :
    (setNodeSize id v st).edges = st.edges := by
  unfold setNodeSize
  cases alookup id st.nodes <;> rfl

theorem setNodeSize_inodes (id v : Nat) (st : TreeState) :
    (setNodeSize id v st).inodes = st.inodes := by
  unfold setNodeSize
  cases alookup id st.nodes <;> rfl

theorem setNodeSize_branches (id v : Nat) (st : TreeState) :
    (setNodeSize id v st).branches = st.branches := by
  unfold setNodeSize
  cases alookup id st.nodes <;> rfl

theorem setNodeSize_nodes_some {id v : Nat} {st : TreeState} {n : Node}
    (h : alookup id st.nodes = some n) :
    (setNodeSize id v st).nodes = aupdate id { n with fileSize := some v } st.nodes := by
  unfold setNodeSize
  rw [h]

theorem contrib_dir {nm : List (Nat × Node)} {id : Nat} (h : nmIsDir nm id = true) :
    contrib nm id = 0 := by
  unfold contrib
  rw [if_pos h]

theorem contrib_file {nm : List (Nat × Node)} {id : Nat} {nd : Node}
    (h : nmIsDir nm id = false) (hnd : alookup id nm = some nd) :
    contrib nm id = nd.fileSize.getD 0 := by
  unfold contrib
  rw [if_neg (by simp [h]), hnd]
  rfl

theorem countedIds_singleton (nm : List (Nat × Node)) (c : Nat) (S : List (Nat × Nat)) :
    countedIds nm [c] S = if gatePass nm S c then [c] else [] := by
  show ((if gatePass nm S c then [c] else []) ++ ([] : List Nat)) = _
  rw [List.append_nil]

theorem ids_head_disjoint {k : Shape} {ks : List Shape}
    (h : (shapeIdsList (k :: ks)).Nodup) {id : Nat} (h1 : id ∈ shapeIds k) :
    id ∉ shapeIdsList ks := by
  rw [shapeIdsList_cons, List.nodup_append] at h
  exact fun h2 => h.2.2 h1 h2

theorem paths_head_disjoint {nm : List (Nat × Node)} {k : Shape} {ks : List Shape}
    (h : (dirPathsList nm (k :: ks)).Nodup) {p : List String}
    (h1 : p ∈ dirPathsList nm ks) : p ∉ dirPaths nm k := by
  rw [dirPathsList_cons, List.nodup_append] at h
  exact fun h2 => h.2.2 h2 h1

theorem dir_gate_fresh {nm : List (Nat × Node)} {st : TreeState} {k : Shape} {ks : List Shape}
    (hP : ForestPure nm (k :: ks)) (hW : ForestWF nm st (k :: ks))
    (hd : nmIsDir nm k.idOf = true) {key : Nat × Nat}
    (hkey : identKey1 nm k.idOf = some key) :
    key ∉ gateSet nm (shapeCheckSeq nm k) st.inodes := by
  intro hmem
  have hnodk : (shapeIds k).Nodup := (forestPure_head hP).1
  have hkmem : k ∈ subShapesList (k :: ks) := by
    rw [subShapesList_cons]
    exact List.mem_append.mpr (Or.inl (self_mem_subShapes k))
  have h4 := hW.2.2.2 k hkmem hd key (by rw [hkey]; exact List.mem_singleton.mpr rfl)
  rcases (mem_gateSet _ _).mp hmem with h | ⟨id, hid, hk2⟩
  · exact h4.1 h
  · have hidk : id ∈ shapeIdsList k.kidsOf := checkSeq_subset hid
    obtain ⟨ik, kkk⟩ := k
    rw [shapeIds_mk] at hnodk
    have hidk2 : id ∈ shapeIds (Shape.mk ik kkk) := by
      rw [shapeIds_mk]
      exact List.mem_cons_of_mem _ hidk
    have hne : id ≠ (Shape.mk ik kkk).idOf := by
      intro h
      have h' : id = ik := h
      subst h'
      exact (List.nodup_cons.mp hnodk).1 hidk
    exact h4.2 id (by rw [shapeIdsList_cons]; exact List.mem_append.mpr (Or.inl hidk2)) hne hk2

theorem assembleKids_step_dir
    (R : TreeState → ColumnProperties → Nat → Option (TreeState × ColumnProperties))
    (ctx : Context) (st : TreeState) (cp : ColumnProperties) (c : Nat) (rest : List Nat)
    (acc : Nat) {nd ndk : Node} {st1 : TreeState} {cp1 : ColumnProperties}
    (h : alookup c st.nodes = some nd) (hdir : nd.isDir = true)
    (hrec : R st cp c = some (st1, cp1))
    (h2 : alookup c st1.nodes = some ndk) :
    assembleKids R ctx st cp (c :: rest) acc
      = ndk.inode.elim
          (assembleKids R ctx st1 (updateColumnProps cp1 ndk ctx.long) rest
            (acc + ndk.fileSize.getD 0))
          (fun i =>
            if i.nlink > 1 then
              if i.key ∈ st1.inodes then
                assembleKids R ctx st1 (updateColumnProps cp1 ndk ctx.long) rest acc
              else
                assembleKids R ctx { st1 with inodes := st1.inodes ++ [i.key] }
                  (updateColumnProps cp1 ndk ctx.long) rest (acc + ndk.fileSize.getD 0)
            else
              assembleKids R ctx st1 (updateColumnProps cp1 ndk ctx.long) rest
                (acc + ndk.fileSize.getD 0)) := by
  show ((alookup c st.nodes).bind fun child0 =>
      (if child0.isDir then R st cp c else some (st, cp)).bind fun stcp =>
      (alookup c stcp.1.nodes).bind fun child =>
      child.inode.elim
        (assembleKids R ctx stcp.1 (updateColumnProps stcp.2 child ctx.long) rest
          (acc + child.fileSize.getD 0))
        (fun i =>
          if i.nlink > 1 then
            if i.key ∈ stcp.1.inodes then
              assembleKids R ctx stcp.1 (updateColumnProps stcp.2 child ctx.long) rest acc
            else
              assembleKids R ctx { stcp.1 with inodes := stcp.1.inodes ++ [i.key] }
                (updateColumnProps stcp.2 child ctx.long) rest (acc + child.fileSize.getD 0)
          else
            assembleKids R ctx stcp.1 (updateColumnProps stcp.2 child ctx.long) rest
              (acc + child.fileSize.getD 0))) = _
  rw [h]
  simp only [Option.some_bind]
  rw [if_pos hdir, hrec]
  simp only [Option.some_bind]
  have h2' : alookup c (st1, cp1).1.nodes = some ndk := h2
  rw [h2']
  simp only [Option.some_bind]

theorem assembleKids_step_file
    (R : TreeState → ColumnProperties → Nat → Option (TreeState × ColumnProperties))
    (ctx : Context) (st : TreeState) (cp : ColumnProperties) (c : Nat) (rest : List Nat)
    (acc : Nat) {nd : Node}
    (h : alookup c st.nodes = some nd) (hdir : nd.isDir = false) :
    assembleKids R ctx st cp (c :: rest) acc
      = nd.inode.elim
          (assembleKids R ctx st (updateColumnProps cp nd ctx.long) rest
            (acc + nd.fileSize.getD 0))
          (fun i =>
            if i.nlink > 1 then
              if i.key ∈ st.inodes then
                assembleKids R ctx st (updateColumnProps cp nd ctx.long) rest acc
              else
                assembleKids R ctx { st with inodes := st.inodes ++ [i.key] }
                  (updateColumnProps cp nd ctx.long) rest (acc + nd.fileSize.getD 0)
            else
              assembleKids R ctx st (updateColumnProps cp nd ctx.long) rest
                (acc + nd.fileSize.getD 0)) := by
  show ((alookup c st.nodes).bind fun child0 =>
      (if child0.isDir then R st cp c else some (st, cp)).bind fun stcp =>
      (alookup c stcp.1.nodes).bind fun child =>
      child.inode.elim
        (assembleKids R ctx stcp.1 (updateColumnProps stcp.2 child ctx.long) rest
          (acc + child.fileSize.getD 0))
        (fun i =>
          if i.nlink > 1 then
            if i.key ∈ stcp.1.inodes then
              assembleKids R ctx stcp.1 (updateColumnProps stcp.2 child ctx.long) rest acc
            else
              assembleKids R ctx { stcp.1 with inodes := stcp.1.inodes ++ [i.key] }
                (updateColumnProps stcp.2 child ctx.long) rest (acc + child.fileSize.getD 0)
          else
            assembleKids R ctx stcp.1 (updateColumnProps stcp.2 child ctx.long) rest
              (acc + child.fileSize.getD 0))) = _
  rw [h]
  simp only [Option.some_bind]
  rw [if_neg (by simp [hdir])]
  simp only [Option.some_bind]
  have h' : alookup c (st, cp).1.nodes = some nd := h
  rw [h']
  simp only [Option.some_bind]

theorem kidsProp_nil : KidsProp [] := by
  intro nm cmp ctx fuel st cp acc hsz hP hW
  refine ⟨st, cp, rfl, rfl, ?_, ?_, ?_, ?_, ?_, ?_⟩
  · intro id h; rfl
  · intro id h hnd; rfl
  · intro u hu hdu; exact absurd hu (List.not_mem_nil _)
  · intro id h; rfl
  · intro u hu hdu; exact absurd hu (List.not_mem_nil _)
  · intro p hp; rfl

theorem treeProp_step (i : Nat) (ks : List Shape) (hkids : KidsProp ks) :
    TreeProp (Shape.mk i ks) := by
  intro nm cmp ctx st cp fuel hfuel hdir hP hW
  cases fuel with
  | zero =>
    rw [shapeSize_mk] at hfuel
    omega
  | succ f =>
    have hdir' : nmIsDir nm i = true := hdir
    have hidmem : i ∈ shapeIds (Shape.mk i ks) := by
      rw [shapeIds_mk]; exact List.mem_cons_self _ _
    obtain ⟨nd, hnd⟩ := Option.isSome_iff_exists.mp (hP.2.1 i hidmem)
    have hlookST : alookup i st.nodes = some nd := by rw [hW.1 i hidmem]; exact hnd
    have hpath : nd.path = nmPath nm i := by
      unfold nmPath
      rw [hnd]
      rfl
    have hbr : alookup (nmPath nm i) st.branches = some (ks.map Shape.idOf) :=
      hW.2.1 (Shape.mk i ks) (by rw [subShapes_mk]; exact List.mem_cons_self _ _) hdir
    have hP1 : ForestPure nm ks := shapePure_kids hP
    have hWF1 : ForestWF nm { st with branches := aremove (nmPath nm i) st.branches } ks :=
      shapeWF_kids hP hW hdir
    have hszk : shapeSizeList ks ≤ f := by rw [shapeSize_mk] at hfuel; omega
    obtain ⟨st2, cp2, heq2, hK1, hK2, hK3, hK4, hK5, hK6, hK7⟩ := hkids nm cmp ctx f
      { st with branches := aremove (nmPath nm i) st.branches } cp 0 hszk hP1 hWF1
    set g := ((countedIds nm (kidsSeq nm ks) st.inodes).map (contrib nm)).sum with hg
    have heq2' : assembleKids (assembleTree f cmp ctx) ctx
        { st with branches := aremove (nmPath nm i) st.branches } cp (ks.map Shape.idOf) 0
        = some (st2, cp2, g) := by
      rw [heq2]
      show some (st2, cp2, 0 + g) = some (st2, cp2, g)
      rw [Nat.zero_add]
    have hK1' : st2.inodes = gateSet nm (kidsSeq nm ks) st.inodes := hK1
    have hK2' : ∀ id, id ∉ shapeIdsList ks → alookup id st2.nodes = alookup id st.nodes :=
      fun id h => hK2 id h
    have hK3' : ∀ id ∈ shapeIdsList ks, nmIsDir nm id = false →
        alookup id st2.nodes = alookup id st.nodes := fun id h1 h2 => hK3 id h1 h2
    have hK4' : ∀ u ∈ subShapesList ks, nmIsDir nm u.idOf = true →
        ∃ nd2 P Q, alookup u.idOf nm = some nd2 ∧
          kidsSeq nm ks = P ++ shapeCheckSeq nm u ++ Q ∧
          alookup u.idOf st2.nodes = some { nd2 with fileSize :=
            (if 0 < subSum nm (gateSet nm P st.inodes) u
             then some (subSum nm (gateSet nm P st.inodes) u) else nd2.fileSize) } :=
      fun u hu hdu => hK4 u hu hdu
    have hK5' : ∀ id, id ∉ shapeIdsList ks → alookup id st2.edges = alookup id st.edges :=
      fun id h => hK5 id h
    have hinotin : i ∉ shapeIdsList ks := by
      have h := hP.1
      rw [shapeIds_mk] at h
      exact (List.nodup_cons.mp h).1
    have hlook2 : alookup i st2.nodes = some nd := by rw [hK2' i hinotin]; exact hlookST
    set st3 := (if 0 < g then setNodeSize i g st2 else st2) with hst3
    set nd' := ({ nd with fileSize := if 0 < g then some g else nd.fileSize } : Node) with hndp
    have h3nodes : st3.nodes = aupdate i nd' st2.nodes := by
      rw [hst3, hndp]
      by_cases hg0 : 0 < g
      · rw [if_pos hg0, if_pos hg0]
        exact setNodeSize_nodes_some hlook2
      · rw [if_neg hg0, if_neg hg0]
        exact (aupdate_self_eq hlook2).symm
    have h3edges : st3.edges = st2.edges := by
      rw [hst3]
      by_cases hg0 : 0 < g
      · rw [if_pos hg0]; exact setNodeSize_edges _ _ _
      · rw [if_neg hg0]
    have h3inodes : st3.inodes = st2.inodes := by
      rw [hst3]
      by_cases hg0 : 0 < g
      · rw [if_pos hg0]; exact setNodeSize_inodes _ _ _
      · rw [if_neg hg0]
    have h3branches : st3.branches = st2.branches := by
      rw [hst3]
      by_cases hg0 : 0 < g
      · rw [if_pos hg0]; exact setNodeSize_branches _ _ _
      · rw [if_neg hg0]
    have hlook3 : alookup i st3.nodes = some nd' := by
      rw [h3nodes]; exact alookup_aupdate_self i nd' st2.nodes
    have hE3 : alookup i st3.edges = none := by
      rw [h3edges, hK5' i hinotin]
      exact hW.2.2.1 i hidmem
    have hrun : assembleTree (f + 1) cmp ctx st cp i
        = some (appendChildren i (sortBy (nodeLe st3 cmp) (ks.map Shape.idOf)) st3,
                updateColumnProps cp2 nd' ctx.long) := by
      show ((alookup i st.nodes).bind fun current =>
        (alookup current.path st.branches).bind fun children =>
        (assembleKids (assembleTree f cmp ctx) ctx
            { st with branches := aremove current.path st.branches } cp children 0).bind fun res =>
        let st3x := if res.2.2 > 0 then setNodeSize i res.2.2 res.1 else res.1
        (alookup i st3x.nodes).bind fun dir =>
        some (appendChildren i (sortBy (nodeLe st3x cmp) children) st3x,
              updateColumnProps res.2.1 dir ctx.long)) = _
      rw [hlookST]
      simp only [Option.some_bind]
      rw [hpath, hbr]
      simp only [Option.some_bind]
      rw [heq2']
      simp only [Option.some_bind]
      show (alookup i st3.nodes).bind (fun dir =>
        some (appendChildren i (sortBy (nodeLe st3 cmp) (ks.map Shape.idOf)) st3,
              updateColumnProps cp2 dir ctx.long)) = _
      rw [hlook3]
      simp only [Option.some_bind]
    refine ⟨_, _, hrun, ?_, ?_, ?_, ?_, ?_, ?_, ?_, ?_⟩
    · show st3.inodes = gateSet nm (kidsSeq nm ks) st.inodes
      rw [h3inodes]
      exact hK1'
    · intro id hid
      have hne : id ≠ i ∧ id ∉ shapeIdsList ks := by
        rw [shapeIds_mk] at hid
        exact ⟨fun h => hid (by rw [h]; exact List.mem_cons_self _ _),
               fun h => hid (List.mem_cons_of_mem _ h)⟩
      show alookup id st3.nodes = alookup id st.nodes
      rw [h3nodes, alookup_aupdate_ne nd' hne.1, hK2' id hne.2]
    · intro id hid hndid
      have hne : id ≠ i := by
        intro h
        rw [h, hdir'] at hndid
        exact Bool.noConfusion hndid
      have hmem : id ∈ shapeIdsList ks := by
        rw [shapeIds_mk] at hid
        rcases List.mem_cons.mp hid with h | h
        · exact absurd h hne
        · exact h
      show alookup id st3.nodes = alookup id st.nodes
      rw [h3nodes, alookup_aupdate_ne nd' hne, hK3' id hmem hndid]
    · exact ⟨nd, hnd, hlook3⟩
    · intro u hu hdu
      obtain ⟨nd2, P, Q, hnd2, hdec, hval⟩ := hK4' u hu hdu
      have hne : u.idOf ≠ i := by
        intro h
        exact hinotin (by rw [← h]; exact idOf_mem_idsList hu)
      refine ⟨nd2, P, Q, hnd2, ?_, ?_⟩
      · rw [checkSeq_mk]; exact hdec
      · show alookup u.idOf st3.nodes = _
        rw [h3nodes, alookup_aupdate_ne nd' hne]
        exact hval
    · intro id hid
      have hne : id ≠ i ∧ id ∉ shapeIdsList ks := by
        rw [shapeIds_mk] at hid
        exact ⟨fun h => hid (by rw [h]; exact List.mem_cons_self _ _),
               fun h => hid (List.mem_cons_of_mem _ h)⟩
      show alookup id (aupdate i ((alookup i st3.edges).getD []
          ++ sortBy (nodeLe st3 cmp) (ks.map Shape.idOf)) st3.edges) = alookup id st.edges
      rw [alookup_aupdate_ne _ hne.1, h3edges, hK5' id hne.2]
    · intro u hu hdu
      rw [subShapes_mk] at hu
      rcases List.mem_cons.mp hu with rfl | hu2
      · refine ⟨sortBy (nodeLe st3 cmp) (ks.map Shape.idOf), ?_, ?_⟩
        · show alookup i (aupdate i ((alookup i st3.edges).getD []
              ++ sortBy (nodeLe st3 cmp) (ks.map Shape.idOf)) st3.edges) = _
          rw [hE3, alookup_aupdate_self]
          rfl
        · exact sortBy_perm _ _
      · obtain ⟨l, hl, hperm⟩ := hK6 u hu2 hdu
        have hne : u.idOf ≠ i := by
          intro h
          exact hinotin (by rw [← h]; exact idOf_mem_idsList hu2)
        refine ⟨l, ?_, hperm⟩
        show alookup u.idOf (aupdate i ((alookup i st3.edges).getD []
            ++ sortBy (nodeLe st3 cmp) (ks.map Shape.idOf)) st3.edges) = some l
        rw [alookup_aupdate_ne _ hne, h3edges]
        exact hl
    · intro p hp
      rw [dirPaths_dir nm i ks hdir'] at hp
      have h1 : p ≠ nmPath nm i := fun h => hp (by rw [h]; exact List.mem_cons_self _ _)
      have h2 : p ∉ dirPathsList nm ks := fun h => hp (List.mem_cons_of_mem _ h)
      have hb2 : alookup p st2.branches = alookup p (aremove (nmPath nm i) st.branches) :=
        hK7 p h2
      show alookup p st3.branches = alookup p st.branches
      rw [h3branches, hb2, alookup_aremove_ne h1]

theorem gateSet_singleton (nm : List (Nat × Node)) (c : Nat) (S : List (Nat × Nat)) :
    gateSet nm [c] S = gateInsert nm S c := rfl

theorem kidsProp_cons (k : Shape) (ks : List Shape)
    (htree : TreeProp k) (htail : KidsProp ks) : KidsProp (k :: ks) := by
  obtain ⟨ik, kkk⟩ := k
  intro nm cmp ctx fuel st cp acc hsz hP hW
  simp only [List.map_cons]
  rw [shapeSizeList_cons] at hsz
  have hkidm : Shape.mk ik kkk ∈ subShapesList (Shape.mk ik kkk :: ks) := by
    rw [subShapesList_cons]
    exact List.mem_append.mpr (Or.inl (self_mem_subShapes _))
  have hidm : (Shape.mk ik kkk).idOf ∈ shapeIdsList (Shape.mk ik kkk :: ks) := by
    rw [shapeIdsList_cons]
    exact List.mem_append.mpr (Or.inl (idOf_mem_shapeIds _))
  obtain ⟨nd, hnd⟩ := Option.isSome_iff_exists.mp (hP.2.1 _ hidm)
  have hlookST : alookup (Shape.mk ik kkk).idOf st.nodes = some nd := by
    rw [hW.1 _ hidm]; exact hnd
  have hdir_eq : nd.isDir = nmIsDir nm (Shape.mk ik kkk).idOf := by
    unfold nmIsDir
    rw [hnd]
  have hPt : ForestPure nm ks := forestPure_tail hP
  have hfuelt : shapeSizeList ks ≤ fuel := by
    have := shapeSize_pos (Shape.mk ik kkk)
    omega
  have hdisj : ∀ id ∈ shapeIds (Shape.mk ik kkk), id ∉ shapeIdsList ks :=
    fun id h => ids_head_disjoint hP.1 h
  by_cases hd : nmIsDir nm (Shape.mk ik kkk).idOf = true
  · -- directory child: recurse first, then the gate check on the child itself
    have hPk : ShapePure nm (Shape.mk ik kkk) := forestPure_head hP
    have hWk : ShapeStateWF nm st (Shape.mk ik kkk) := forestWF_head hW
    have hfk : shapeSize (Shape.mk ik kkk) ≤ fuel := by omega
    obtain ⟨st1, cp1, hrun1, hT1, hT2, hT3, hT4, hT5, hT6, hT7, hT8⟩ :=
      htree nm cmp ctx st cp fuel hfk hd hPk hWk
    obtain ⟨nd0, hnd0, hself⟩ := hT4
    have hnd0e : nd = nd0 := by rw [hnd] at hnd0; exact Option.some.inj hnd0
    subst hnd0e
    obtain ⟨ndk, hndk⟩ : ∃ x : Node,
        ({ nd with fileSize :=
          (if 0 < subSum nm st.inodes (Shape.mk ik kkk)
           then some (subSum nm st.inodes (Shape.mk ik kkk)) else nd.fileSize) } : Node) = x :=
      ⟨_, rfl⟩
    have hself' : alookup (Shape.mk ik kkk).idOf st1.nodes = some ndk := by
      rw [← hndk]; exact hself
    have hndk_inode : ndk.inode = nd.inode := by rw [← hndk]
    have hndk_fs : ndk.fileSize
        = (if 0 < subSum nm st.inodes (Shape.mk ik kkk)
           then some (subSum nm st.inodes (Shape.mk ik kkk)) else nd.fileSize) := by
      rw [← hndk]
    have hfs0 : nd.fileSize = none := by
      have h := hP.2.2.2.1 _ hkidm hd
      rw [hnd] at h
      exact h
    have hgetD : ndk.fileSize.getD 0 = subSum nm st.inodes (Shape.mk ik kkk) := by
      rw [hndk_fs, hfs0]
      by_cases h0 : 0 < subSum nm st.inodes (Shape.mk ik kkk)
      · rw [if_pos h0]; rfl
      · rw [if_neg h0]
        have h1 : subSum nm st.inodes (Shape.mk ik kkk) = 0 := by omega
        rw [h1]; rfl
    have hstep0 := assembleKids_step_dir (assembleTree fuel cmp ctx) ctx st cp
      (Shape.mk ik kkk).idOf (ks.map Shape.idOf) acc hlookST
      (by rw [hdir_eq]; exact hd) hrun1 hself'
    have hstep : ∃ st2 : TreeState,
        assembleKids (assembleTree fuel cmp ctx) ctx st cp
          ((Shape.mk ik kkk).idOf :: ks.map Shape.idOf) acc
          = assembleKids (assembleTree fuel cmp ctx) ctx st2
              (updateColumnProps cp1 ndk ctx.long) (ks.map Shape.idOf)
              (acc + subSum nm st.inodes (Shape.mk ik kkk))
        ∧ st2.nodes = st1.nodes ∧ st2.edges = st1.edges ∧ st2.branches = st1.branches
        ∧ st2.inodes = gateSet nm
            (shapeCheckSeq nm (Shape.mk ik kkk) ++ [(Shape.mk ik kkk).idOf]) st.inodes := by
      cases hino : nd.inode with
      | none =>
        have hik : identKey1 nm (Shape.mk ik kkk).idOf = none := by
          unfold identKey1
          rw [hnd]
          show (match nd.inode with
            | some i => if i.nlink > 1 then some (i.dev, i.ino) else none
            | none => none) = none
          rw [hino]
        have hgr : gateSet nm
            (shapeCheckSeq nm (Shape.mk ik kkk) ++ [(Shape.mk ik kkk).idOf]) st.inodes
            = gateSet nm (shapeCheckSeq nm (Shape.mk ik kkk)) st.inodes := by
          rw [gateSet_append, gateSet_singleton]
          unfold gateInsert
          rw [hik]
        refine ⟨st1, ?_, rfl, rfl, rfl, ?_⟩
        · rw [hstep0, hndk_inode, hino]
          simp only [Option.elim_none]
          rw [hgetD]
        · rw [hgr]; exact hT1
      | some io =>
        by_cases hnl : io.nlink > 1
        · have hik : identKey1 nm (Shape.mk ik kkk).idOf = some io.key := by
            unfold identKey1
            rw [hnd]
            show (match nd.inode with
              | some i => if i.nlink > 1 then some (i.dev, i.ino) else none
              | none => none) = some io.key
            rw [hino]
            show (if io.nlink > 1 then some (io.dev, io.ino) else none) = some io.key
            rw [if_pos hnl]
            rfl
          have hfreshG : io.key ∉ gateSet nm (shapeCheckSeq nm (Shape.mk ik kkk)) st.inodes :=
            dir_gate_fresh hP hW hd hik
          have hfresh : io.key ∉ st1.inodes := by rw [hT1]; exact hfreshG
          have hgr : gateSet nm
              (shapeCheckSeq nm (Shape.mk ik kkk) ++ [(Shape.mk ik kkk).idOf]) st.inodes
              = if io.key ∈ gateSet nm (shapeCheckSeq nm (Shape.mk ik kkk)) st.inodes
                then gateSet nm (shapeCheckSeq nm (Shape.mk ik kkk)) st.inodes
                else gateSet nm (shapeCheckSeq nm (Shape.mk ik kkk)) st.inodes ++ [io.key] := by
            rw [gateSet_append, gateSet_singleton]
            unfold gateInsert
            rw [hik]
          refine ⟨{ st1 with inodes := st1.inodes ++ [io.key] }, ?_, rfl, rfl, rfl, ?_⟩
          · rw [hstep0, hndk_inode, hino]
            simp only [Option.elim_some]
            rw [if_pos hnl, if_neg hfresh, hgetD]
          · show st1.inodes ++ [io.key] = _
            rw [hgr, if_neg hfreshG, ← hT1]
        · have hik : identKey1 nm (Shape.mk ik kkk).idOf = none := by
            unfold identKey1
            rw [hnd]
            show (match nd.inode with
              | some i => if i.nlink > 1 then some (i.dev, i.ino) else none
              | none => none) = none
            rw [hino]
            show (if io.nlink > 1 then some (io.dev, io.ino) else none) = none
            rw [if_neg hnl]
          have hgr : gateSet nm
              (shapeCheckSeq nm (Shape.mk ik kkk) ++ [(Shape.mk ik kkk).idOf]) st.inodes
              = gateSet nm (shapeCheckSeq nm (Shape.mk ik kkk)) st.inodes := by
            rw [gateSet_append, gateSet_singleton]
            unfold gateInsert
            rw [hik]
          refine ⟨st1, ?_, rfl, rfl, rfl, ?_⟩
          · rw [hstep0, hndk_inode, hino]
            simp only [Option.elim_some]
            rw [if_neg hnl, hgetD]
          · rw [hgr]; exact hT1
    obtain ⟨st2, hstepeq, h2n, h2e, h2b, h2i⟩ := hstep
    have hWt : ForestWF nm st2 ks := by
      refine ⟨?_, ?_, ?_, ?_⟩
      · intro id hid
        have hnotk : id ∉ shapeIds (Shape.mk ik kkk) := fun h => hdisj id h hid
        rw [h2n, hT2 id hnotk]
        exact hW.1 id (by rw [shapeIdsList_cons]; exact List.mem_append.mpr (Or.inr hid))
      · intro u hu hdu
        have hpmem : nmPath nm u.idOf ∈ dirPathsList nm ks := mem_dirPathsList hu hdu
        have hpnot : nmPath nm u.idOf ∉ dirPaths nm (Shape.mk ik kkk) :=
          paths_head_disjoint hP.2.2.2.2 hpmem
        rw [h2b, hT8 _ hpnot]
        exact hW.2.1 u (by rw [subShapesList_cons]; exact List.mem_append.mpr (Or.inr hu)) hdu
      · intro id hid
        have hnotk : id ∉ shapeIds (Shape.mk ik kkk) := fun h => hdisj id h hid
        rw [h2e, hT6 id hnotk]
        exact hW.2.2.1 id (by rw [shapeIdsList_cons]; exact List.mem_append.mpr (Or.inr hid))
      · intro u hu hdu key hkey
        have hu' : u ∈ subShapesList (Shape.mk ik kkk :: ks) := by
          rw [subShapesList_cons]; exact List.mem_append.mpr (Or.inr hu)
        obtain ⟨ha, hb⟩ := hW.2.2.2 u hu' hdu key hkey
        have huid : u.idOf ∈ shapeIdsList ks := idOf_mem_idsList hu
        refine ⟨?_, ?_⟩
        · rw [h2i]
          intro hmem
          rcases (mem_gateSet _ _).mp hmem with h | ⟨id, hidseg, hk2⟩
          · exact ha h
          · have hidk : id ∈ shapeIds (Shape.mk ik kkk) := by
              rcases List.mem_append.mp hidseg with h | h
              · rw [shapeIds_mk]
                exact List.mem_cons_of_mem _ (checkSeq_subset h)
              · obtain rfl := List.mem_singleton.mp h
                exact idOf_mem_shapeIds _
            have hne : id ≠ u.idOf := by
              intro h
              exact hdisj id hidk (by rw [h]; exact huid)
            exact hb id (by rw [shapeIdsList_cons]; exact List.mem_append.mpr (Or.inl hidk))
              hne hk2
        · intro id2 hid2 hne2
          exact hb id2 (by rw [shapeIdsList_cons]; exact List.mem_append.mpr (Or.inr hid2)) hne2
    obtain ⟨st3, cp3, heq3, hL1, hL2, hL3, hL4, hL5, hL6, hL7⟩ :=
      htail nm cmp ctx fuel st2 (updateColumnProps cp1 ndk ctx.long)
        (acc + subSum nm st.inodes (Shape.mk ik kkk)) hfuelt hPt hWt
    have hseq : kidsSeq nm (Shape.mk ik kkk :: ks)
        = (shapeCheckSeq nm (Shape.mk ik kkk) ++ [(Shape.mk ik kkk).idOf]) ++ kidsSeq nm ks := by
      rw [kidsSeq_cons, if_pos hd, List.append_assoc]
    have hgate_total : gateSet nm (kidsSeq nm (Shape.mk ik kkk :: ks)) st.inodes
        = gateSet nm (kidsSeq nm ks) st2.inodes := by
      rw [hseq, gateSet_append, ← h2i]
    have hsum : ((countedIds nm (kidsSeq nm (Shape.mk ik kkk :: ks)) st.inodes).map
          (contrib nm)).sum
        = subSum nm st.inodes (Shape.mk ik kkk)
          + ((countedIds nm (kidsSeq nm ks) st2.inodes).map (contrib nm)).sum := by
      rw [hseq, countedIds_append, List.map_append, List.sum_append]
      congr 1
      · rw [countedIds_append, List.map_append, List.sum_append, countedIds_singleton]
        show subSum nm st.inodes (Shape.mk ik kkk) + _ = subSum nm st.inodes (Shape.mk ik kkk)
        have hY : (((if gatePass nm (gateSet nm (shapeCheckSeq nm (Shape.mk ik kkk)) st.inodes)
              (Shape.mk ik kkk).idOf then [(Shape.mk ik kkk).idOf] else []).map
              (contrib nm)).sum) = 0 := by
          by_cases hpass : gatePass nm
              (gateSet nm (shapeCheckSeq nm (Shape.mk ik kkk)) st.inodes)
              (Shape.mk ik kkk).idOf = true
          · rw [if_pos hpass]
            simp [contrib_dir hd]
          · rw [if_neg hpass]
            rfl
        omega
      · rw [← h2i]
    have heqfinal : assembleKids (assembleTree fuel cmp ctx) ctx st cp
        ((Shape.mk ik kkk).idOf :: ks.map Shape.idOf) acc
        = some (st3, cp3, acc + ((countedIds nm (kidsSeq nm (Shape.mk ik kkk :: ks))
            st.inodes).map (contrib nm)).sum) := by
      rw [hstepeq, heq3, hsum, Nat.add_assoc]
    refine ⟨st3, cp3, heqfinal, ?_, ?_, ?_, ?_, ?_, ?_, ?_⟩
    · rw [hgate_total]; exact hL1
    · intro id hid
      have h1 : id ∉ shapeIds (Shape.mk ik kkk) := fun h => hid
        (by rw [shapeIdsList_cons]; exact List.mem_append.mpr (Or.inl h))
      have h2 : id ∉ shapeIdsList ks := fun h => hid
        (by rw [shapeIdsList_cons]; exact List.mem_append.mpr (Or.inr h))
      rw [hL2 id h2, h2n, hT2 id h1]
    · intro id hid hndid
      rw [shapeIdsList_cons] at hid
      rcases List.mem_append.mp hid with h | h
      · rw [hL2 id (hdisj id h), h2n, hT3 id h hndid]
      · rw [hL3 id h hndid, h2n, hT2 id (fun hk => hdisj id hk h)]
    · intro u hu hdu
      rw [subShapesList_cons] at hu
      rcases List.mem_append.mp hu with h | h
      · rw [subShapes_mk] at h
        rcases List.mem_cons.mp h with rfl | h2
        · refine ⟨nd, [], [(Shape.mk ik kkk).idOf] ++ kidsSeq nm ks, hnd, ?_, ?_⟩
          · rw [kidsSeq_cons, if_pos hd, List.nil_append, List.append_assoc]
          · rw [hL2 _ (hdisj _ (idOf_mem_shapeIds _)), h2n]
            exact hself
        · obtain ⟨nd2, P, Q, hnd2, hdec, hval⟩ := hT5 u h2 hdu
          refine ⟨nd2, P, Q ++ ([(Shape.mk ik kkk).idOf] ++ kidsSeq nm ks), hnd2, ?_, ?_⟩
          · rw [kidsSeq_cons, if_pos hd, hdec]
            simp [List.append_assoc]
          · have hne : u.idOf ∉ shapeIdsList ks := hdisj u.idOf
              (by rw [shapeIds_mk]; exact List.mem_cons_of_mem _ (idOf_mem_idsList h2))
            rw [hL2 _ hne, h2n]
            exact hval
      · obtain ⟨nd2, P, Q, hnd2, hdec, hval⟩ := hL4 u h hdu
        refine ⟨nd2,
          (shapeCheckSeq nm (Shape.mk ik kkk) ++ [(Shape.mk ik kkk).idOf]) ++ P, Q, hnd2,
          ?_, ?_⟩
        · rw [hseq, hdec]
          simp [List.append_assoc]
        · rw [gateSet_append, ← h2i]
          exact hval
    · intro id hid
      have h1 : id ∉ shapeIds (Shape.mk ik kkk) := fun h => hid
        (by rw [shapeIdsList_cons]; exact List.mem_append.mpr (Or.inl h))
      have h2 : id ∉ shapeIdsList ks := fun h => hid
        (by rw [shapeIdsList_cons]; exact List.mem_append.mpr (Or.inr h))
      rw [hL5 id h2, h2e, hT6 id h1]
    · intro u hu hdu
      rw [subShapesList_cons] at hu
      rcases List.mem_append.mp hu with h | h
      · obtain ⟨l, hl, hperm⟩ := hT7 u h hdu
        have hne : u.idOf ∉ shapeIdsList ks := hdisj u.idOf (idOf_mem_ids_of_sub h)
        refine ⟨l, ?_, hperm⟩
        rw [hL5 _ hne, h2e]
        exact hl
      · exact hL6 u h hdu
    · intro p hp
      rw [dirPathsList_cons] at hp
      have h1 : p ∉ dirPaths nm (Shape.mk ik kkk) := fun h =>
        hp (List.mem_append.mpr (Or.inl h))
      have h2 : p ∉ dirPathsList nm ks := fun h => hp (List.mem_append.mpr (Or.inr h))
      rw [hL7 p h2, h2b, hT8 p h1]
  · -- file child: gate check directly against the current seen-set
    have hdf : nmIsDir nm (Shape.mk ik kkk).idOf = false := by
      cases hB : nmIsDir nm (Shape.mk ik kkk).idOf
      · rfl
      · exact absurd hB hd
    have hkk0 : kkk = [] := List.length_eq_zero.mp (hP.2.2.1 _ hkidm hdf)
    subst hkk0
    have hdirnd : nd.isDir = false := by rw [hdir_eq]; exact hdf
    have hstep0 := assembleKids_step_file (assembleTree fuel cmp ctx) ctx st cp
      (Shape.mk ik []).idOf (ks.map Shape.idOf) acc hlookST hdirnd
    have hcontrib : contrib nm (Shape.mk ik []).idOf = nd.fileSize.getD 0 :=
      contrib_file hdf hnd
    have hstep : ∃ st2 : TreeState,
        assembleKids (assembleTree fuel cmp ctx) ctx st cp
          ((Shape.mk ik []).idOf :: ks.map Shape.idOf) acc
          = assembleKids (assembleTree fuel cmp ctx) ctx st2
              (updateColumnProps cp nd ctx.long) (ks.map Shape.idOf)
              (acc + (if gatePass nm st.inodes (Shape.mk ik []).idOf
                      then contrib nm (Shape.mk ik []).idOf else 0))
        ∧ st2.nodes = st.nodes ∧ st2.edges = st.edges ∧ st2.branches = st.branches
        ∧ st2.inodes = gateInsert nm st.inodes (Shape.mk ik []).idOf := by
      cases hino : nd.inode with
      | none =>
        have hik : identKey1 nm (Shape.mk ik []).idOf = none := by
          unfold identKey1
          rw [hnd]
          show (match nd.inode with
            | some i => if i.nlink > 1 then some (i.dev, i.ino) else none
            | none => none) = none
          rw [hino]
        have hpass : gatePass nm st.inodes (Shape.mk ik []).idOf = true := by
          unfold gatePass
          rw [hik]
        refine ⟨st, ?_, rfl, rfl, rfl, ?_⟩
        · rw [hstep0, hino]
          simp only [Option.elim_none]
          rw [if_pos hpass, hcontrib]
        · show st.inodes = _
          unfold gateInsert
          rw [hik]
      | some io =>
        by_cases hnl : io.nlink > 1
        · have hik : identKey1 nm (Shape.mk ik []).idOf = some io.key := by
            unfold identKey1
            rw [hnd]
            show (match nd.inode with
              | some i => if i.nlink > 1 then some (i.dev, i.ino) else none
              | none => none) = some io.key
            rw [hino]
            show (if io.nlink > 1 then some (io.dev, io.ino) else none) = some io.key
            rw [if_pos hnl]
            rfl
          by_cases hmem : io.key ∈ st.inodes
          · have hpass : gatePass nm st.inodes (Shape.mk ik []).idOf = false := by
              unfold gatePass
              rw [hik]
              simp [hmem]
            refine ⟨st, ?_, rfl, rfl, rfl, ?_⟩
            · rw [hstep0, hino]
              simp only [Option.elim_some]
              rw [if_pos hnl, if_pos hmem, if_neg (by simp [hpass]), Nat.add_zero]
            · show st.inodes = _
              unfold gateInsert
              rw [hik]
              show st.inodes = if io.key ∈ st.inodes then st.inodes else st.inodes ++ [io.key]
              rw [if_pos hmem]
          · have hpass : gatePass nm st.inodes (Shape.mk ik []).idOf = true := by
              unfold gatePass
              rw [hik]
              simp [hmem]
            refine ⟨{ st with inodes := st.inodes ++ [io.key] }, ?_, rfl, rfl, rfl, ?_⟩
            · rw [hstep0, hino]
              simp only [Option.elim_some]
              rw [if_pos hnl, if_neg hmem, if_pos hpass, hcontrib]
            · show st.inodes ++ [io.key] = _
              unfold gateInsert
              rw [hik]
              show st.inodes ++ [io.key]
                  = if io.key ∈ st.inodes then st.inodes else st.inodes ++ [io.key]
              rw [if_neg hmem]
        · have hik : identKey1 nm (Shape.mk ik []).idOf = none := by
            unfold identKey1
            rw [hnd]
            show (match nd.inode with
              | some i => if i.nlink > 1 then some (i.dev, i.ino) else none
              | none => none) = none
            rw [hino]
            show (if io.nlink > 1 then some (io.dev, io.ino) else none) = none
            rw [if_neg hnl]
          have hpass : gatePass nm st.inodes (Shape.mk ik []).idOf = true := by
            unfold gatePass
            rw [hik]
          refine ⟨st, ?_, rfl, rfl, rfl, ?_⟩
          · rw [hstep0, hino]
            simp only [Option.elim_some]
            rw [if_neg hnl, if_pos hpass, hcontrib]
          · show st.inodes = _
            unfold gateInsert
            rw [hik]
    obtain ⟨st2, hstepeq, h2n, h2e, h2b, h2i⟩ := hstep
    have hWt : ForestWF nm st2 ks := by
      refine ⟨?_, ?_, ?_, ?_⟩
      · intro id hid
        rw [h2n]
        exact hW.1 id (by rw [shapeIdsList_cons]; exact List.mem_append.mpr (Or.inr hid))
      · intro u hu hdu
        rw [h2b]
        exact hW.2.1 u (by rw [subShapesList_cons]; exact List.mem_append.mpr (Or.inr hu)) hdu
      · intro id hid
        rw [h2e]
        exact hW.2.2.1 id (by rw [shapeIdsList_cons]; exact List.mem_append.mpr (Or.inr hid))
      · intro u hu hdu key hkey
        have hu' : u ∈ subShapesList (Shape.mk ik [] :: ks) := by
          rw [subShapesList_cons]; exact List.mem_append.mpr (Or.inr hu)
        obtain ⟨ha, hb⟩ := hW.2.2.2 u hu' hdu key hkey
        have huid : u.idOf ∈ shapeIdsList ks := idOf_mem_idsList hu
        refine ⟨?_, ?_⟩
        · rw [h2i]
          intro hmem
          rcases mem_gateInsert.mp hmem with h | h
          · exact ha h
          · have hidk : (Shape.mk ik []).idOf ∈ shapeIds (Shape.mk ik []) :=
              idOf_mem_shapeIds _
            have hne : (Shape.mk ik []).idOf ≠ u.idOf := by
              intro he
              exact hdisj _ hidk (by rw [he]; exact huid)
            exact hb _ (by rw [shapeIdsList_cons]; exact List.mem_append.mpr (Or.inl hidk))
              hne h
        · intro id2 hid2 hne2
          exact hb id2 (by rw [shapeIdsList_cons]; exact List.mem_append.mpr (Or.inr hid2)) hne2
    obtain ⟨st3, cp3, heq3, hL1, hL2, hL3, hL4, hL5, hL6, hL7⟩ :=
      htail nm cmp ctx fuel st2 (updateColumnProps cp nd ctx.long)
        (acc + (if gatePass nm st.inodes (Shape.mk ik []).idOf
                then contrib nm (Shape.mk ik []).idOf else 0)) hfuelt hPt hWt
    have hseq : kidsSeq nm (Shape.mk ik [] :: ks)
        = [(Shape.mk ik []).idOf] ++ kidsSeq nm ks := by
      rw [kidsSeq_cons, if_neg (by simp [hdf]), List.nil_append]
    have hgate_total : gateSet nm (kidsSeq nm (Shape.mk ik [] :: ks)) st.inodes
        = gateSet nm (kidsSeq nm ks) st2.inodes := by
      rw [hseq, gateSet_append, gateSet_singleton, ← h2i]
    have hsum : ((countedIds nm (kidsSeq nm (Shape.mk ik [] :: ks)) st.inodes).map
          (contrib nm)).sum
        = (if gatePass nm st.inodes (Shape.mk ik []).idOf
           then contrib nm (Shape.mk ik []).idOf else 0)
          + ((countedIds nm (kidsSeq nm ks) st2.inodes).map (contrib nm)).sum := by
      rw [hseq, countedIds_append, List.map_append, List.sum_append, countedIds_singleton]
      congr 1
      · by_cases hpass : gatePass nm st.inodes (Shape.mk ik []).idOf = true
        · rw [if_pos hpass, if_pos hpass]
          simp
        · rw [if_neg hpass, if_neg hpass]
          rfl
      · rw [gateSet_singleton, ← h2i]
    have heqfinal : assembleKids (assembleTree fuel cmp ctx) ctx st cp
        ((Shape.mk ik []).idOf :: ks.map Shape.idOf) acc
        = some (st3, cp3, acc + ((countedIds nm (kidsSeq nm (Shape.mk ik [] :: ks))
            st.inodes).map (contrib nm)).sum) := by
      rw [hstepeq, heq3, hsum, Nat.add_assoc]
    refine ⟨st3, cp3, heqfinal, ?_, ?_, ?_, ?_, ?_, ?_, ?_⟩
    · rw [hgate_total]; exact hL1
    · intro id hid
      have h2 : id ∉ shapeIdsList ks := fun h => hid
        (by rw [shapeIdsList_cons]; exact List.mem_append.mpr (Or.inr h))
      rw [hL2 id h2, h2n]
    · intro id hid hndid
      rw [shapeIdsList_cons] at hid
      rcases List.mem_append.mp hid with h | h
      · rw [hL2 id (hdisj id h), h2n]
      · rw [hL3 id h hndid, h2n]
    · intro u hu hdu
      rw [subShapesList_cons] at hu
      rcases List.mem_append.mp hu with h | h
      · rw [subShapes_mk] at h
        rcases List.mem_cons.mp h with rfl | h2
        · rw [hdf] at hdu
          exact Bool.noConfusion hdu
        · exact absurd h2 (List.not_mem_nil _)
      · obtain ⟨nd2, P, Q, hnd2, hdec, hval⟩ := hL4 u h hdu
        refine ⟨nd2, [(Shape.mk ik []).idOf] ++ P, Q, hnd2, ?_, ?_⟩
        · rw [hseq, hdec]
          simp [List.append_assoc]
        · rw [gateSet_append, gateSet_singleton, ← h2i]
          exact hval
    · intro id hid
      have h2 : id ∉ shapeIdsList ks := fun h => hid
        (by rw [shapeIdsList_cons]; exact List.mem_append.mpr (Or.inr h))
      rw [hL5 id h2, h2e]
    · intro u hu hdu
      rw [subShapesList_cons] at hu
      rcases List.mem_append.mp hu with h | h
      · rw [subShapes_mk] at h
        rcases List.mem_cons.mp h with rfl | h2
        · rw [hdf] at hdu
          exact Bool.noConfusion hdu
        · exact absurd h2 (List.not_mem_nil _)
      · exact hL6 u h hdu
    · intro p hp
      have h2 : p ∉ dirPathsList nm ks := fun h => hp
        (by rw [dirPathsList_cons]; exact List.mem_append.mpr (Or.inr h))
      rw [hL7 p h2, h2b]

/-- Main induction for the assembler: the per-directory statement and the
per-level statement, simultaneously by strong induction on shape size. -/
theorem assembleMain : ∀ n : Nat,
    (∀ s : Shape, shapeSize s ≤ n → TreeProp s) ∧
    (∀ ks : List Shape, shapeSizeList ks ≤ n → KidsProp ks) := by
  intro n
  induction n with
  | zero =>
    constructor
    · intro s hs
      exact absurd hs (by have := shapeSize_pos s; omega)
    · intro ks hks
      cases ks with
      | nil => exact kidsProp_nil
      | cons k ks =>
        exact absurd hks (by rw [shapeSizeList_cons]; have := shapeSize_pos k; omega)
  | succ n ih =>
    have htree : ∀ s : Shape, shapeSize s ≤ n + 1 → TreeProp s := by
      intro s hs
      obtain ⟨i, ks⟩ := s
      refine treeProp_step i ks (ih.2 ks ?_)
      rw [shapeSize_mk] at hs
      omega
    refine ⟨htree, ?_⟩
    intro ks hks
    cases ks with
    | nil => exact kidsProp_nil
    | cons k ks =>
      rw [shapeSizeList_cons] at hks
      have h1 := shapeSize_pos k
      exact kidsProp_cons k ks (htree k (by omega)) (ih.2 ks (by omega))

/-- Claim C1: for every assembled tree and every directory node of it,
the size recorded by `assemble_tree` equals the sum of the file sizes of
the descendant non-directory entries counted through the hard-link gate
in fold order (`subSum` over the directory's check sequence, threaded
from the seen-set reached by the fold's prefix `P`): among entries that
share a device+inode identity with link count above one, only the first
one encountered contributes.  Non-directory nodes keep their original
entry, and every directory's recorded children are a permutation of its
pending branch-map kids — in particular the skipped duplicate hard-link
nodes remain as children in the tree. -/
theorem assemble_tree_dir_sizes_hardlink_dedup
    (nm : List (Nat × Node)) (cmp : Node → Node → Ordering) (ctx : Context)
    (st : TreeState) (cp : ColumnProperties) (sh : Shape) (fuel : Nat)
    (hfuel : shapeSize sh ≤ fuel) (hroot : nmIsDir nm sh.idOf = true)
    (hpure : ShapePure nm sh) (hwf : ShapeStateWF nm st sh) (hS0 : st.inodes = []) :
    ∃ st' cp', assembleTree fuel cmp ctx st cp sh.idOf = some (st', cp') ∧
      (∃ nd, alookup sh.idOf nm = some nd ∧
          alookup sh.idOf st'.nodes = some { nd with fileSize :=
            (if 0 < subSum nm [] sh then some (subSum nm [] sh) else nd.fileSize) }) ∧
      (∀ u ∈ subShapesList sh.kidsOf, nmIsDir nm u.idOf = true →
          ∃ nd P Q, alookup u.idOf nm = some nd ∧
            shapeCheckSeq nm sh = P ++ shapeCheckSeq nm u ++ Q ∧
            alookup u.idOf st'.nodes = some { nd with fileSize :=
              (if 0 < subSum nm (gateSet nm P []) u
               then some (subSum nm (gateSet nm P []) u) else nd.fileSize) }) ∧
      (∀ id ∈ shapeIds sh, nmIsDir nm id = false →
          alookup id st'.nodes = alookup id nm) ∧
      (∀ u ∈ subShapes sh, nmIsDir nm u.idOf = true →
          ∃ l, alookup u.idOf st'.edges = some l ∧ l.Perm (u.kidsOf.map Shape.idOf)) := by
  obtain ⟨st', cp', hrun, hc1, hc2, hc3, hc4, hc5, hc6, hc7, hc8⟩ :=
    (assembleMain (shapeSize sh)).1 sh le_rfl nm cmp ctx st cp fuel hfuel hroot hpure hwf
  refine ⟨st', cp', hrun, ?_, ?_, ?_, hc7⟩
  · obtain ⟨nd, h1, h2⟩ := hc4
    rw [hS0] at h2
    exact ⟨nd, h1, h2⟩
  · intro u hu hdu
    obtain ⟨nd, P, Q, h1, h2, h3⟩ := hc5 u hu hdu
    rw [hS0] at h3
    exact ⟨nd, P, Q, h1, h2, h3⟩
  · intro id hid hnd
    rw [hc3 id hid hnd]
    exact hwf.1 id hid

/-- Witness for C1: the spec scenario — a directory with two hard-linked
1000-byte files (same inode, link count 2) aggregates to 1000, not 2000;
the theorem applied to the concrete run records that size on the root. -/
theorem assemble_tree_dir_sizes_hardlink_dedup_witness :
    (subSum hlNm [] hlShape = 1000 ∧ ShapePure hlNm hlShape) ∧
    (∃ st' cp', assembleTree 3 byPath okCtx hlSt ⟨0, 0, 0, 0⟩ hlShape.idOf
        = some (st', cp') ∧
      (∃ nd, alookup hlShape.idOf hlNm = some nd ∧
          alookup hlShape.idOf st'.nodes = some { nd with fileSize :=
            (if 0 < subSum hlNm [] hlShape
             then some (subSum hlNm [] hlShape) else nd.fileSize) })) := by
  refine ⟨⟨by decide, by unfold ShapePure; decide⟩, ?_⟩
  obtain ⟨st', cp', hrun, hself, _, _, _⟩ :=
    assemble_tree_dir_sizes_hardlink_dedup hlNm byPath okCtx hlSt ⟨0, 0, 0, 0⟩ hlShape 3
      (by decide) (by decide) (by unfold ShapePure; decide)
      (by unfold ShapeStateWF; decide) rfl
  exact ⟨st', cp', hrun, hself⟩
